import Mathlib

/-!
Verification development for the instantiation and scheduling core of a
regression-test framework (fixture registry and BFS expansion, pipeline
hook scheduler, version validator).  The definitions below are a shallow
embedding of the Python sources:

* FixtureRegistry, TestFixture and the environment resolution of
  FixtureSpace.inject come from reframe/core/fixtures.py;
* TestRegistry and its instantiate_all driver come from
  reframe/core/decorators.py;
* the hook machinery comes from reframe/core/hooks.py;
* Version is modelled from the specification (its implementation module is
  not part of the source sample; only its unit tests are).

Python dictionaries are modelled as insertion-ordered association lists:
assignment overwrites in place when the key exists and appends otherwise,
which is exactly CPython's dict semantics.  External collaborators (the
runtime system, test-class constructors, the logger) are parameters of the
embedding; constructors may fail, which is modelled with Except.
-/

namespace Reframe

/-- Python dict assignment d[k] = v: overwrite in place if the key is
present, append at the end otherwise. -/
def dictInsert [DecidableEq α] (k : α) (v : β) : List (α × β) → List (α × β)
  | [] => [(k, v)]
  | (k', v') :: rest =>
    if k' = k then (k, v) :: rest else (k', v') :: dictInsert k v rest

/-- Python dict read d.get(k): the value stored at the first (hence only)
occurrence of the key. -/
def dictLookup [DecidableEq α] (k : α) : List (α × β) → Option β
  | [] => none
  | (k', v') :: rest => if k' = k then some v' else dictLookup k rest

/-- The keys of a modelled dict, in insertion order. -/
def dictKeys (d : List (α × β)) : List α := d.map Prod.fst

/-- Test classes are identified by an opaque id. -/
abbrev TCls := Nat

/-- The value stored for one concrete fixture name: the fixture variant
index together with the stolen valid_prog_environs and valid_systems
lists (fixtures.py, FixtureRegistry docstring). -/
structure FixArgs where
  fid : Nat
  penv : List String
  part : List String
deriving DecidableEq, Repr

/-- A fixture scope (fixtures.py, TestFixture). -/
inductive Scope
  | session
  | partition
  | environment
  | test
deriving DecidableEq, Repr

/-- A declared fixture: target test class plus scope (fixtures.py,
TestFixture; the registration-time scope checks are not needed here). -/
structure TestFixture where
  test : TCls
  scope : Scope
deriving DecidableEq, Repr

/-- FixtureRegistry._reg: a dict from test class to a dict from concrete
fixture name to FixArgs (fixtures.py, FixtureRegistry.__init__). -/
structure FixtureRegistry where
  reg : List (TCls × List (String × FixArgs))
deriving DecidableEq, Repr

/-- A fresh, empty fixture registry. -/
def FixtureRegistry.empty : FixtureRegistry := ⟨[]⟩

/-- self._reg.setdefault(test, dict()). -/
def FixtureRegistry.setdefault (r : FixtureRegistry) (t : TCls) :
    FixtureRegistry :=
  match dictLookup t r.reg with
  | some _ => r
  | none => ⟨r.reg ++ [(t, [])]⟩

/-- self._reg[test][name] = args.  The assignment only takes place when the
outer key is present; every call site establishes that with setdefault
first, as the source does. -/
def FixtureRegistry.setEntry (r : FixtureRegistry) (t : TCls) (name : String)
    (a : FixArgs) : FixtureRegistry :=
  ⟨r.reg.map fun tv => if tv.1 = t then (tv.1, dictInsert name a tv.2) else tv⟩

/-- self._reg[test][name], as used by difference and the membership checks. -/
def FixtureRegistry.lookup2 (r : FixtureRegistry) (t : TCls) (n : String) :
    Option FixArgs :=
  (dictLookup t r.reg).bind fun vs => dictLookup n vs

/-- Whether the registry holds an entry for the (class, name) key. -/
def FixtureRegistry.hasKey (r : FixtureRegistry) (k : TCls × String) : Bool :=
  (r.lookup2 k.1 k.2).isSome

/-- All (class, name, args) entries of the registry, outer insertion order
first, inner insertion order second (the iteration order of the nested
loops in update/difference/instantiate_all). -/
def FixtureRegistry.entries (r : FixtureRegistry) :
    List (TCls × String × FixArgs) :=
  r.reg.flatMap fun tv => tv.2.map fun na => (tv.1, na.1, na.2)

/-- The (class, name) keys of all entries, in entry order. -/
def FixtureRegistry.keys2 (r : FixtureRegistry) : List (TCls × String) :=
  r.entries.map fun e => (e.1, e.2.1)

/-- The dict invariant a Python FixtureRegistry satisfies by construction:
no duplicate outer class key and no duplicate name key inside any class. -/
def FixtureRegistry.WF (r : FixtureRegistry) : Prop :=
  (dictKeys r.reg).Nodup ∧ ∀ tv ∈ r.reg, (dictKeys tv.2).Nodup

/-- Python str.join with an underscore separator. -/
def joinU : List String → String
  | [] => ""
  | [s] => s
  | s :: rest => s ++ "_" ++ joinU rest

/-- FixtureRegistry.add (fixtures.py lines 33-85): register a fixture under
the scoped naming convention and return the generated names.  The class
fullname function is an external capability of the test class.  A value of
none models the IndexError the source raises when it reads the first
element of an empty resolved list. -/
def FixtureRegistry.add (fullname : TCls → Nat → String) (r : FixtureRegistry)
    (fixture : TestFixture) (fid : Nat) (branch : String)
    (partitions prog_envs : List String) :
    Option (FixtureRegistry × List String) :=
  let test := fixture.test
  let fname := fullname test fid
  let r1 := r.setdefault test
  match fixture.scope with
  | .session =>
    match prog_envs, partitions with
    | pe0 :: _, p0 :: _ =>
      some (r1.setEntry test fname ⟨fid, [pe0], [p0]⟩, [fname])
    | _, _ => none
  | .partition =>
    match partitions, prog_envs with
    | [], _ => some (r1, [])
    | _ :: _, [] => none
    | p :: ps, pe0 :: _ =>
      some ((p :: ps).foldl
        (fun acc q =>
          (acc.1.setEntry test (joinU [fname, q]) ⟨fid, [pe0], [q]⟩,
           acc.2 ++ [joinU [fname, q]]))
        (r1, []))
  | .environment =>
    some (partitions.foldl
      (fun acc p => prog_envs.foldl
        (fun acc2 env =>
          (acc2.1.setEntry test (joinU [fname, p, env]) ⟨fid, [env], [p]⟩,
           acc2.2 ++ [joinU [fname, p, env]]))
        acc)
      (r1, []))
  | .test =>
    some (r1.setEntry test (joinU [fname, branch]) ⟨fid, prog_envs, partitions⟩,
          [joinU [fname, branch]])

/-- FixtureRegistry.update (fixtures.py lines 87-93): merge another
registry into this one, later entries overwriting on key collision. -/
def FixtureRegistry.update (r other : FixtureRegistry) : FixtureRegistry :=
  other.reg.foldl
    (fun acc tv =>
      tv.2.foldl (fun acc2 na => acc2.setEntry tv.1 na.1 na.2)
        (acc.setdefault tv.1))
    r

/-- FixtureRegistry.difference (fixtures.py lines 95-109): a new registry
with the entries of self whose (class, name) key is not in other. -/
def FixtureRegistry.difference (r other : FixtureRegistry) : FixtureRegistry :=
  r.reg.foldl
    (fun ret tv =>
      match dictLookup tv.1 other.reg with
      | some other_variants =>
        tv.2.foldl
          (fun ret2 na =>
            if (dictLookup na.1 other_variants).isSome then ret2
            else (ret2.setdefault tv.1).setEntry tv.1 na.1 na.2)
          ret
      | none => ⟨dictInsert tv.1 tv.2 ret.reg⟩)
    FixtureRegistry.empty

/-- What difference contributes for one outer entry of self: the whole
inner dict when the class is absent from other, the kept names otherwise,
nothing when no name survives.  This is the specification the fold in
difference is proved to satisfy. -/
def diffInner (o : FixtureRegistry) (t : TCls)
    (inner : List (String × FixArgs)) :
    Option (TCls × List (String × FixArgs)) :=
  match dictLookup t o.reg with
  | none => some (t, inner)
  | some ovs =>
    if inner.filter (fun na => !(dictLookup na.1 ovs).isSome) = [] then none
    else some (t, inner.filter (fun na => !(dictLookup na.1 ovs).isSome))

/-- A test-class attribute slot, which either holds a value or the
Undefined sentinel of reframe.core.variables. -/
inductive AttrVal (α : Type)
  | undefined
  | defined (v : α)
deriving DecidableEq, Repr

/-- The mutable class-level attributes that fixture instantiation
temporarily overwrites: name, valid_prog_environs, valid_systems. -/
structure ClsState where
  name : AttrVal String
  valid_prog_environs : AttrVal (List String)
  valid_systems : AttrVal (List String)
deriving DecidableEq, Repr

/-- The shared class-level attribute store, per test class. -/
abbrev ClsStore := TCls → ClsState

/-- Overwrite a class's shared attributes with the scoped values of one
registry entry (fixtures.py lines 119-121). -/
def setScoped (st : ClsStore) (t : TCls) (n : String)
    (penv part : List String) : ClsStore :=
  fun t' =>
    if t' = t then ⟨.defined n, .defined penv, .defined part⟩ else st t'

/-- Reset a class's shared attributes to the Undefined sentinel
(fixtures.py lines 127-129). -/
def resetCls (st : ClsStore) (t : TCls) : ClsStore :=
  fun t' => if t' = t then ⟨.undefined, .undefined, .undefined⟩ else st t'

/-- An exception raised by a test constructor, identified opaquely. -/
abbrev RErr := Nat

/-- A constructed test instance: its class, its (scoped) name, and the
private fixture registry its construction attached to it, if any
(the _rfm_fixture_registry attribute populated by FixtureSpace.inject). -/
structure Inst where
  cls : TCls
  name : String
  fixtureReg : Option FixtureRegistry
deriving DecidableEq, Repr

/-- The (class, name) identity of a constructed instance. -/
def instKey (i : Inst) : TCls × String := (i.cls, i.name)

/-- The external constructor capability used for fixtures:
test(_rfm_test_id=fid) run with the class attributes holding the given
name, valid_prog_environs and valid_systems.  It either raises or yields
the fixture registry the new instance carries. -/
abbrev Ctor :=
  TCls → String → List String → List String → Nat →
    Except RErr (Option FixtureRegistry)

/-- The entry loop of FixtureRegistry.instantiate_all (fixtures.py lines
111-131): for each (class, name, args) entry, overwrite the class
attributes with the scoped values, construct the instance, and reset the
attributes to Undefined only after a successful construction.  An
exception propagates immediately, carrying the class store as left at the
raise point; the partially built instance list is discarded. -/
def instEntries (ctor : Ctor) :
    List (TCls × String × FixArgs) → ClsStore → List Inst →
      Except (RErr × ClsStore) (List Inst × ClsStore)
  | [], st, acc => .ok (acc, st)
  | (t, n, a) :: rest, st, acc =>
    let st1 := setScoped st t n a.penv a.part
    match ctor t n a.penv a.part a.fid with
    | .error e => .error (e, st1)
    | .ok freg => instEntries ctor rest (resetCls st1 t) (acc ++ [⟨t, n, freg⟩])

/-- FixtureRegistry.instantiate_all (fixtures.py lines 111-131). -/
def FixtureRegistry.instantiate_all (r : FixtureRegistry) (ctor : Ctor)
    (st : ClsStore) : Except (RErr × ClsStore) (List Inst × ClsStore) :=
  instEntries ctor r.entries st []

/-- The outcome of constructing one leaf test (decorators.py lines 80-95):
success, a SkipTestError, or any other exception. -/
inductive LeafResult
  | ok (name : String) (freg : Option FixtureRegistry)
  | skipErr
  | err
deriving DecidableEq, Repr

/-- The external constructor capability for leaf tests, applied to the
class and one opaque (args, kwargs) recipe token. -/
abbrev LeafCtor := TCls → Nat → LeafResult

/-- TestRegistry state: per-class list of construction recipes, plus the
legacy skip set (decorators.py lines 43-60). -/
structure TestRegistry where
  tests : List (TCls × List Nat)
  skip_tests : List TCls

/-- Step 1 of TestRegistry.instantiate_all (decorators.py lines 75-95):
construct every registered variant of every non-skipped class; a
SkipTestError or any other exception is caught and logged and that
instance alone is dropped. -/
def leafConstruct (lc : LeafCtor) (tr : TestRegistry) : List Inst :=
  tr.tests.foldl
    (fun acc tv =>
      if tv.1 ∈ tr.skip_tests then acc
      else tv.2.foldl
        (fun acc2 a =>
          match lc tv.1 a with
          | .ok n freg => acc2 ++ [⟨tv.1, n, freg⟩]
          | .skipErr => acc2
          | .err => acc2)
        acc)
    []

/-- The inner while loop of the BFS (decorators.py lines 108-113): pop
instances, append each to the final list and merge its private fixture
registry, when present, into the wave registry.  The source pops from the
end of leaf_tests, so the loop is applied to the reversed list. -/
def drainLoop : List Inst → List Inst → FixtureRegistry →
    List Inst × FixtureRegistry
  | [], final, tmp => (final, tmp)
  | c :: cs, final, tmp =>
    drainLoop cs (final ++ [c])
      (match c.fixtureReg with
       | some r => tmp.update r
       | none => tmp)

/-- The outer while loop of TestRegistry.instantiate_all (decorators.py
lines 106-119), written with explicit fuel: none means the fuel ran out
before the loop exited (the source loops forever in that situation).  A
fixture constructor exception is not caught anywhere in this loop and
aborts the traversal (the class store it leaves behind is ambient global
state, modelled at the FixtureRegistry.instantiate_all level). -/
def bfsLoop (ctor : Ctor) :
    Nat → List Inst → List Inst → FixtureRegistry → ClsStore →
      Option (Except RErr (List Inst))
  | 0, _, _, _, _ => none
  | _ + 1, [], final, _, _ => some (.ok final)
  | fuel + 1, c :: cs, final, seen, st =>
    let fc := drainLoop (c :: cs).reverse final FixtureRegistry.empty
    let new_fixtures := fc.2.difference seen
    match new_fixtures.instantiate_all ctor st with
    | .error es => some (.error es.1)
    | .ok (next, st') => bfsLoop ctor fuel next fc.1 (seen.update new_fixtures) st'

/-- TestRegistry.instantiate_all (decorators.py lines 62-120): leaf
construction followed by the level-order fixture expansion. -/
def TestRegistry.instantiate_all (tr : TestRegistry) (lc : LeafCtor)
    (ctor : Ctor) (st : ClsStore) (fuel : Nat) :
    Option (Except RErr (List Inst)) :=
  bfsLoop ctor fuel (leafConstruct lc tr) [] FixtureRegistry.empty st

/-- One system partition of the runtime collaborator: full name plus the
names of its programming environments. -/
structure SysPartition where
  fullname : String
  environs : List String
deriving DecidableEq, Repr

/-- The runtime collaborator's current system. -/
structure RuntimeSys where
  sysname : String
  partitions : List SysPartition
deriving DecidableEq, Repr

/-- Partition resolution in FixtureSpace.inject (fixtures.py lines
252-261): a star or the system name in valid_systems selects every
partition full name, in partition order. -/
def resolve_part (rt : RuntimeSys) (valid_systems : List String) :
    List String :=
  if "*" ∈ valid_systems ∨ rt.sysname ∈ valid_systems then
    rt.partitions.map (fun p => p.fullname)
  else valid_systems

/-- Environment resolution in FixtureSpace.inject (fixtures.py lines
263-275): a star in valid_prog_environs is replaced by tuple(all_pes)
where all_pes is a Python set filled in partition order.  The iteration
order of that set is implementation defined, so it is a parameter
(setIter); a faithful setIter returns the support of its input in some
order, which is the ModelsSetIter predicate below. -/
def resolve_prog_envs (setIter : List String → List String)
    (rt : RuntimeSys) (valid_prog_environs : List String) : List String :=
  if "*" ∈ valid_prog_environs then
    setIter (rt.partitions.flatMap (fun p => p.environs))
  else valid_prog_environs

/-- What it means for an enumeration function to model iterating a Python
set built from the given insertions: no duplicates and exactly the
elements inserted.  Nothing constrains the order. -/
def ModelsSetIter (f : List String → List String) : Prop :=
  ∀ xs, (f xs).Nodup ∧ ∀ x, x ∈ f xs ↔ x ∈ xs

/-- One concrete admissible set-iteration order: first-occurrence order. -/
def setIterA (xs : List String) : List String := xs.dedup

/-- Another concrete admissible set-iteration order: last occurrences
first, as a different hash seed could produce. -/
def setIterB (xs : List String) : List String := xs.reverse.dedup

/-- The metadata the hook decorators of hooks.py leave on a method:
its name, an opaque id of its implementation, the _rfm_attach list ([]
when the attribute is absent) and the _rfm_resolve_deps flag (false when
absent). -/
structure FnMeta where
  name : String
  implId : Nat
  attach : List String
  resolveDeps : Bool
deriving DecidableEq, Repr

/-- The _runx backend decorator (hooks.py lines 13-37): append the phase
to _rfm_attach (creating it when absent) and clear _rfm_resolve_deps,
since the function no longer needs an implicit resolution slot. -/
def runx (phase : String) (f : FnMeta) : FnMeta :=
  { f with attach := f.attach ++ [phase], resolveDeps := false }

/-- The user-facing pipeline stage names (hooks.py lines 42-44). -/
def _USER_PIPELINE_STAGES : List String :=
  ["init", "setup", "compile", "run", "sanity", "performance", "cleanup"]

/-- The run_before decorator (hooks.py lines 47-66): validate the stage,
reject init, and attach to pre_ plus the stage name as given. -/
def run_before (stage : String) : Except String (FnMeta → FnMeta) :=
  if stage ∉ _USER_PIPELINE_STAGES then
    .error "invalid pipeline stage specified"
  else if stage = "init" then .error "pre-init hooks are not allowed"
  else .ok (runx ("pre_" ++ stage))

/-- The run_after decorator (hooks.py lines 69-110): validate the stage,
map init, compile and run to their pipeline functions, and attach to
post_ plus the mapped name. -/
def run_after (stage : String) : Except String (FnMeta → FnMeta) :=
  if stage ∉ _USER_PIPELINE_STAGES then
    .error "invalid pipeline stage specified"
  else
    let stage2 :=
      if stage = "init" then "__init__"
      else if stage = "compile" then "compile_wait"
      else if stage = "run" then "run_wait"
      else stage
    .ok (runx ("post_" ++ stage2))

/-- The require_deps decorator (hooks.py lines 113-146): mark the method
as dependency resolving; the getdep partial application does not change
the metadata that the registry reads. -/
def require_deps (f : FnMeta) : FnMeta :=
  { f with resolveDeps := true }

/-- A pipeline hook (hooks.py, class Hook): a wrapper whose hash and
equality are by function name only. -/
structure Hook where
  fn : FnMeta
deriving DecidableEq, Repr

/-- Hook.__name__, delegated to the wrapped function. -/
def Hook.hname (h : Hook) : String := h.fn.name

/-- Modelled from the spec: util.OrderedSet (reframe/utility is not part
of the source sample).  Phase buckets are insertion-ordered sets of Hook
under Hook's name-based equality: adding a hook whose name is already
present is a no-op. -/
def osAdd (s : List Hook) (h : Hook) : List Hook :=
  if s.any (fun h' => h'.hname = h.hname) then s else s ++ [h]

/-- HookRegistry.__hooks: a dict from phase name to its ordered set. -/
structure HookRegistry where
  hooks : List (String × List Hook)
deriving DecidableEq, Repr

/-- HookRegistry.update (hooks.py lines 265-269): per phase, setdefault an
empty ordered set and add each incoming hook under name-based set
semantics. -/
def HookRegistry.update (r : HookRegistry)
    (hks : List (String × List Hook)) : HookRegistry :=
  ⟨hks.foldl
    (fun acc pv =>
      let acc1 :=
        match dictLookup pv.1 acc with
        | some _ => acc
        | none => acc ++ [(pv.1, [])]
      pv.2.foldl
        (fun acc2 h =>
          acc2.map fun qv => if qv.1 = pv.1 then (qv.1, osAdd qv.2 h) else qv)
        acc1)
    r.hooks⟩

/-- HookRegistry.create (hooks.py lines 218-246): scan the class namespace
in declaration order, bucket every attach point, collect the dependency
resolving methods and prepend them to the post_setup bucket, then build
the registry (which converts each bucket to an ordered set). -/
def HookRegistry.create (ns : List FnMeta) : HookRegistry :=
  let local_hooks : List (String × List Hook) :=
    ns.foldl
      (fun lh v =>
        v.attach.foldl
          (fun lh2 phase =>
            match dictLookup phase lh2 with
            | some l => dictInsert phase (l ++ [Hook.mk v]) lh2
            | none => dictInsert phase [Hook.mk v] lh2)
          lh)
      []
  let fn_with_deps := (ns.filter (fun v => v.resolveDeps)).map Hook.mk
  let local_hooks2 :=
    if fn_with_deps = [] then local_hooks
    else dictInsert "post_setup"
      (fn_with_deps ++ ((dictLookup "post_setup" local_hooks).getD []))
      local_hooks
  HookRegistry.update ⟨[]⟩ local_hooks2

/-- The phase bucket finally stored for a phase name (empty when the
phase has no hooks). -/
def HookRegistry.bucket (r : HookRegistry) (phase : String) : List Hook :=
  (dictLookup phase r.hooks).getD []

/-- Append hooks to an optional bucket, creating it when needed: the
effect of the try/except KeyError bucket updates in HookRegistry.create,
expressed on the lookup result. -/
def optBucket (o : Option (List Hook)) (l : List Hook) : Option (List Hook) :=
  match o with
  | none => if l = [] then none else some l
  | some l0 => some (l0 ++ l)

/-- The receiving test object seen by attach_hooks: attribute lookup by
name (which finds the most derived implementation) and the disabled hook
names. -/
structure TestObj where
  methodOf : String → Nat
  disabled_hooks : List String

/-- select_hooks inside attach_hooks (hooks.py lines 160-166). -/
def select_hooks (hooks : HookRegistry) (fname : String) (obj : TestObj)
    (kind : String) : List Hook :=
  match dictLookup (kind ++ fname) hooks.hooks with
  | none => []
  | some hs => hs.filter (fun h => h.hname ∉ obj.disabled_hooks)

/-- The sequence of implementations the wrapped pipeline function of
attach_hooks invokes (hooks.py lines 168-177): the pre hooks looked up by
name on the instance, the stage body, then the post hooks. -/
def attach_hooks_trace (hooks : HookRegistry) (fname : String) (obj : TestObj)
    (bodyImpl : Nat) : List Nat :=
  ((select_hooks hooks fname obj "pre_").map (fun h => obj.methodOf h.hname))
    ++ [bodyImpl]
    ++ ((select_hooks hooks fname obj "post_").map
          (fun h => obj.methodOf h.hname))

/-- Modelled from the spec: reframe.utility.versioning.Version is not part
of the source sample (only unittests/test_versioning.py is).  A parsed
version MAJOR.MINOR[.PATCH][-devN]; an absent patch is normalized to 0. -/
structure Version where
  major : Nat
  minor : Nat
  patch : Nat
  dev : Option Nat
deriving DecidableEq, Repr

/-- Modelled from the spec: split a character list at every occurrence of
the separator character. -/
def splitChars (c : Char) : List Char → List (List Char)
  | [] => [[]]
  | x :: xs =>
    let r := splitChars c xs
    if x = c then [] :: r
    else match r with
      | [] => [[x]]
      | g :: gs => (x :: g) :: gs

/-- Modelled from the spec: a non-empty all-digit segment read as a
decimal number, none otherwise. -/
def charsToNat (cs : List Char) : Option Nat :=
  if cs = [] then none
  else cs.foldl
    (fun acc c =>
      acc.bind fun n =>
        if c.isDigit then some (n * 10 + (c.toNat - 48)) else none)
    (some 0)

/-- Modelled from the spec: parsing of the version grammar
MAJOR.MINOR[.PATCH][-devN]; malformed strings (missing minor component,
non-numeric segments, -dev without a number, empty input) yield none. -/
def Version.parse (s : String) : Option Version :=
  let parseBase : List Char → Option Nat → Option Version := fun b dev =>
    match splitChars (Char.ofNat 46) b with
    | [ma, mi] =>
      (charsToNat ma).bind fun major => (charsToNat mi).map fun minor =>
        ⟨major, minor, 0, dev⟩
    | [ma, mi, pa] =>
      (charsToNat ma).bind fun major => (charsToNat mi).bind fun minor =>
        (charsToNat pa).map fun patch => ⟨major, minor, patch, dev⟩
    | _ => none
  match splitChars (Char.ofNat 45) s.data with
  | [base] => parseBase base none
  | [base, d] =>
    if d.take 3 = "dev".data then
      (charsToNat (d.drop 3)).bind fun n => parseBase base (some n)
    else none
  | _ => none

/-- Modelled from the spec: the strict version order.  (major, minor,
patch) compare lexicographically; on a tie a version without a dev suffix
is greater than the same version with one, and two dev suffixes compare
by their number. -/
def Version.lt (a b : Version) : Bool :=
  if a.major ≠ b.major then a.major < b.major
  else if a.minor ≠ b.minor then a.minor < b.minor
  else if a.patch ≠ b.patch then a.patch < b.patch
  else
    match a.dev, b.dev with
    | some m, some k => m < k
    | some _, none => true
    | none, _ => false

/-- Version comparison lifted to version strings, false on parse failure;
convenience for concrete ordering facts. -/
def vltStr (s t : String) : Bool :=
  match Version.parse s, Version.parse t with
  | some a, some b => a.lt b
  | _, _ => false

/-- A concrete fullname capability for concrete evaluations. -/
def fullname0 : TCls → Nat → String := fun _ _ => "f"

/-- A class store with every attribute at the Undefined sentinel. -/
def st0 : ClsStore := fun _ => ⟨.undefined, .undefined, .undefined⟩

/-- A concrete runtime system: one partition with two environments. -/
def rtX : RuntimeSys := ⟨"sys", [⟨"p0", ["e1", "e2"]⟩]⟩

/-- A fixture registry with one entry for class 0, derived from a name. -/
def chainReg (s : String) : FixtureRegistry :=
  ⟨[(0, [(s ++ "x", ⟨0, ["e"], ["p"]⟩)])]⟩

/-- A leaf constructor whose instance requests one fixture, keyed off the
instance name: the shape a test-scoped fixture cycle produces. -/
def badLc : LeafCtor := fun _ _ => .ok "s" (some (chainReg "s"))

/-- A fixture constructor whose every instance requests a further fixture
with a strictly longer name: the shape a test-scoped fixture cycle
produces, since the branch is the requesting instance's name. -/
def badCtor : Ctor := fun _ n _ _ _ => .ok (some (chainReg n))

/-- A registry with a single registered test variant. -/
def oneTr : TestRegistry := ⟨[(0, [0])], []⟩

/-- A fixture constructor that always raises (exception id 7). -/
def failCtor : Ctor := fun _ _ _ _ _ => .error 7

/-- A fixture constructor that never raises and attaches no registry. -/
def noneCtor : Ctor := fun _ _ _ _ _ => .ok none

/-- A leaf constructor that succeeds with no fixture registry. -/
def noRegLc : LeafCtor := fun _ _ => .ok "t" none

/-- A leaf constructor whose single instance carries one fixture request
for class 1. -/
def oneFixLc : LeafCtor :=
  fun _ _ => .ok "leaf" (some ⟨[(1, [("fx", ⟨0, ["e"], ["p"]⟩)])]⟩)

/-- A leaf constructor that fails with a generic exception on recipe 1 and
succeeds on every other recipe. -/
def mixLc : LeafCtor := fun _ a => if a = 1 then .err else .ok "t" none


/-- The concrete result of a partition-scope add used below. -/
def RP : FixtureRegistry × List String :=
  (⟨[(0, [("f_p1", ⟨0, ["e1"], ["p1"]⟩), ("f_p2", ⟨0, ["e1"], ["p2"]⟩)])]⟩,
   ["f_p1", "f_p2"])

/-! Lemmas about the dict model. -/

theorem dictLookup_insert_self [DecidableEq α] (k : α) (v : β)
    (d : List (α × β)) : dictLookup k (dictInsert k v d) = some v := by
  induction d with
  | nil => simp [dictInsert, dictLookup]
  | cons hd tl ih =>
    obtain ⟨a, b⟩ := hd
    by_cases h : a = k <;> simp [dictInsert, dictLookup, h, ih]

theorem dictLookup_insert_ne [DecidableEq α] {k k' : α} (v : β)
    (d : List (α × β)) (h : k' ≠ k) :
    dictLookup k' (dictInsert k v d) = dictLookup k' d := by
  induction d with
  | nil => simp [dictInsert, dictLookup, Ne.symm h]
  | cons hd tl ih =>
    obtain ⟨a, b⟩ := hd
    by_cases h2 : a = k
    · subst h2
      simp [dictInsert, dictLookup, Ne.symm h]
    · by_cases h3 : a = k' <;>
        simp [dictInsert, dictLookup, h2, h3, ih, h, Ne.symm h]

theorem mem_dictKeys_insert [DecidableEq α] {a k : α} (v : β)
    (d : List (α × β)) :
    a ∈ dictKeys (dictInsert k v d) ↔ a = k ∨ a ∈ dictKeys d := by
  induction d with
  | nil => simp [dictInsert, dictKeys]
  | cons hd tl ih =>
    obtain ⟨x, y⟩ := hd
    by_cases h : x = k
    · subst h
      simp [dictInsert, dictKeys]
    · simp only [dictKeys] at ih
      simp only [dictInsert, if_neg h, dictKeys, List.map_cons,
        List.mem_cons, ih]
      tauto

theorem dictInsert_of_not_mem [DecidableEq α] {k : α} (v : β)
    {d : List (α × β)} (h : k ∉ dictKeys d) :
    dictInsert k v d = d ++ [(k, v)] := by
  induction d with
  | nil => simp [dictInsert]
  | cons hd tl ih =>
    obtain ⟨a, b⟩ := hd
    simp only [dictKeys, List.map_cons, List.mem_cons] at h
    push_neg at h
    rw [dictInsert, if_neg (fun he => h.1 he.symm), ih h.2]
    simp

theorem dictKeys_insert [DecidableEq α] (k : α) (v : β)
    (d : List (α × β)) :
    dictKeys (dictInsert k v d) =
      if k ∈ dictKeys d then dictKeys d else dictKeys d ++ [k] := by
  induction d with
  | nil => simp [dictInsert, dictKeys]
  | cons hd tl ih =>
    obtain ⟨a, b⟩ := hd
    by_cases h : a = k
    · subst h
      simp [dictInsert, dictKeys]
    · simp only [dictKeys] at ih
      simp only [dictInsert, if_neg h, dictKeys, List.map_cons, ih,
        List.mem_cons]
      by_cases hm : k ∈ List.map Prod.fst tl <;>
        simp [hm, Ne.symm h]

theorem dictKeys_insert_nodup [DecidableEq α] {k : α} (v : β)
    {d : List (α × β)} (h : (dictKeys d).Nodup) :
    (dictKeys (dictInsert k v d)).Nodup := by
  rw [dictKeys_insert]
  split
  · exact h
  · next hm =>
    refine List.Nodup.append h (List.nodup_singleton k) ?_
    intro x hx hx2
    simp only [List.mem_singleton] at hx2
    subst hx2
    exact hm hx

theorem dictLookup_eq_none [DecidableEq α] {k : α} {d : List (α × β)}
    (h : k ∉ dictKeys d) : dictLookup k d = none := by
  induction d with
  | nil => rfl
  | cons hd tl ih =>
    obtain ⟨a, b⟩ := hd
    simp only [dictKeys, List.map_cons, List.mem_cons] at h
    push_neg at h
    rw [dictLookup, if_neg (fun he => h.1 he.symm)]
    exact ih h.2

theorem dictLookup_isSome_iff [DecidableEq α] {k : α} {d : List (α × β)} :
    (dictLookup k d).isSome ↔ k ∈ dictKeys d := by
  induction d with
  | nil => simp [dictLookup, dictKeys]
  | cons hd tl ih =>
    obtain ⟨a, b⟩ := hd
    simp only [dictKeys] at ih
    by_cases h : a = k
    · subst h
      simp [dictLookup, dictKeys]
    · simp only [dictLookup, if_neg h, dictKeys, List.map_cons,
        List.mem_cons, ih]
      constructor
      · exact Or.inr
      · rintro (rfl | hm)
        · exact absurd rfl h
        · exact hm

theorem dictLookup_mem [DecidableEq α] {k : α} {v : β} {d : List (α × β)}
    (h : dictLookup k d = some v) : (k, v) ∈ d := by
  induction d with
  | nil => simp [dictLookup] at h
  | cons hd tl ih =>
    obtain ⟨a, b⟩ := hd
    by_cases h2 : a = k
    · subst h2
      rw [dictLookup, if_pos rfl] at h
      simp only [Option.some.injEq] at h
      subst h
      exact List.mem_cons_self _ _
    · rw [dictLookup, if_neg h2] at h
      exact List.mem_cons_of_mem _ (ih h)

theorem dictLookup_of_mem_nodup [DecidableEq α] {k : α} {v : β}
    {d : List (α × β)} (hnd : (dictKeys d).Nodup) (h : (k, v) ∈ d) :
    dictLookup k d = some v := by
  induction d with
  | nil => simp at h
  | cons hd tl ih =>
    obtain ⟨a, b⟩ := hd
    simp only [dictKeys, List.map_cons, List.nodup_cons] at hnd
    rcases List.mem_cons.mp h with h | h
    · cases h
      rw [dictLookup, if_pos rfl]
    · have hne : a ≠ k := by
        rintro rfl
        exact hnd.1 (List.mem_map_of_mem Prod.fst h)
      rw [dictLookup, if_neg hne]
      exact ih hnd.2 h

theorem dictLookup_append [DecidableEq α] (k : α) (d1 d2 : List (α × β)) :
    dictLookup k (d1 ++ d2) =
      match dictLookup k d1 with
      | some v => some v
      | none => dictLookup k d2 := by
  induction d1 with
  | nil => simp [dictLookup]
  | cons hd tl ih =>
    obtain ⟨a, b⟩ := hd
    by_cases h : a = k <;> simp [dictLookup, h, ih]

/-! Lemmas about setdefault and setEntry. -/

theorem setdefault_of_mem {r : FixtureRegistry} {t : TCls}
    (ht : t ∈ dictKeys r.reg) : r.setdefault t = r := by
  unfold FixtureRegistry.setdefault
  split
  · rfl
  · next hl => exact absurd (dictLookup_isSome_iff.mpr ht) (by simp [hl])

theorem setdefault_reg_of_not_mem {r : FixtureRegistry} {t : TCls}
    (ht : t ∉ dictKeys r.reg) :
    (r.setdefault t).reg = r.reg ++ [(t, [])] := by
  unfold FixtureRegistry.setdefault
  split
  · next v hl =>
    exact absurd (dictLookup_isSome_iff.mp (by simp [hl])) ht
  · rfl

theorem mem_dictKeys_setdefault {r : FixtureRegistry} {t t' : TCls} :
    t' ∈ dictKeys (r.setdefault t).reg ↔ t' = t ∨ t' ∈ dictKeys r.reg := by
  by_cases ht : t ∈ dictKeys r.reg
  · rw [setdefault_of_mem ht]
    constructor
    · exact Or.inr
    · rintro (rfl | hm)
      · exact ht
      · exact hm
  · rw [setdefault_reg_of_not_mem ht]
    simp only [dictKeys, List.map_append, List.map_cons, List.map_nil,
      List.mem_append, List.mem_singleton]
    tauto

theorem lookup2_setdefault (r : FixtureRegistry) (t t' : TCls) (n : String) :
    (r.setdefault t).lookup2 t' n = r.lookup2 t' n := by
  by_cases ht : t ∈ dictKeys r.reg
  · rw [setdefault_of_mem ht]
  · unfold FixtureRegistry.lookup2
    rw [setdefault_reg_of_not_mem ht, dictLookup_append]
    cases hl : dictLookup t' r.reg with
    | some vs => simp
    | none =>
      by_cases h : t = t'
      · subst h
        simp [dictLookup]
      · simp [dictLookup, h]

theorem hasKey_setdefault (r : FixtureRegistry) (t : TCls)
    (k : TCls × String) : (r.setdefault t).hasKey k = r.hasKey k := by
  unfold FixtureRegistry.hasKey
  rw [lookup2_setdefault]

theorem WF_setdefault {r : FixtureRegistry} (t : TCls) (h : r.WF) :
    (r.setdefault t).WF := by
  by_cases ht : t ∈ dictKeys r.reg
  · rw [setdefault_of_mem ht]; exact h
  · constructor
    · rw [setdefault_reg_of_not_mem ht]
      simp only [dictKeys, List.map_append, List.map_cons, List.map_nil]
      refine List.Nodup.append h.1 (List.nodup_singleton t) ?_
      intro x hx hx2
      simp only [List.mem_singleton] at hx2
      subst hx2
      exact ht hx
    · intro tv htv
      rw [setdefault_reg_of_not_mem ht] at htv
      rcases List.mem_append.mp htv with h2 | h2
      · exact h.2 tv h2
      · simp only [List.mem_singleton] at h2
        subst h2
        simp [dictKeys]

theorem dictLookup_map_keyfix [DecidableEq α] (g : α → β → β) (k : α)
    (d : List (α × β)) :
    dictLookup k (d.map fun p => (p.1, g p.1 p.2)) =
      (dictLookup k d).map (g k) := by
  induction d with
  | nil => rfl
  | cons hd tl ih =>
    obtain ⟨x, y⟩ := hd
    by_cases h : x = k
    · subst h
      simp [dictLookup]
    · simp [dictLookup, h, ih]

theorem setEntry_reg_eq (r : FixtureRegistry) (t : TCls) (n : String)
    (a : FixArgs) :
    (r.setEntry t n a).reg =
      r.reg.map fun p => (p.1, if p.1 = t then dictInsert n a p.2 else p.2) := by
  unfold FixtureRegistry.setEntry
  apply List.map_congr_left
  intro p _
  by_cases h : p.1 = t <;> simp [h]

theorem dictKeys_setEntry (r : FixtureRegistry) (t : TCls) (n : String)
    (a : FixArgs) : dictKeys (r.setEntry t n a).reg = dictKeys r.reg := by
  rw [setEntry_reg_eq]
  show List.map Prod.fst _ = List.map Prod.fst _
  rw [List.map_map]
  apply List.map_congr_left
  intro p _
  rfl

theorem dictLookup_setEntry (r : FixtureRegistry) (t t' : TCls) (n : String)
    (a : FixArgs) :
    dictLookup t' (r.setEntry t n a).reg =
      (dictLookup t' r.reg).map
        (fun vs => if t' = t then dictInsert n a vs else vs) := by
  rw [setEntry_reg_eq]
  exact dictLookup_map_keyfix (fun x vs => if x = t then dictInsert n a vs else vs) t' r.reg

theorem lookup2_setEntry_self {r : FixtureRegistry} {t : TCls}
    (n : String) (a : FixArgs) (ht : t ∈ dictKeys r.reg) :
    (r.setEntry t n a).lookup2 t n = some a := by
  unfold FixtureRegistry.lookup2
  rw [dictLookup_setEntry]
  obtain ⟨v, hv⟩ := Option.isSome_iff_exists.mp (dictLookup_isSome_iff.mpr ht)
  rw [hv]
  simp [dictLookup_insert_self]

theorem lookup2_setEntry_ne {r : FixtureRegistry} {t t' : TCls}
    {n n' : String} (a : FixArgs) (h : t' ≠ t ∨ n' ≠ n) :
    (r.setEntry t n a).lookup2 t' n' = r.lookup2 t' n' := by
  unfold FixtureRegistry.lookup2
  rw [dictLookup_setEntry]
  cases hl : dictLookup t' r.reg with
  | none => simp
  | some vs =>
    rcases h with h | h
    · simp [h]
    · by_cases h2 : t' = t
      · simp [h2, dictLookup_insert_ne _ _ h]
      · simp [h2]

theorem WF_setEntry {r : FixtureRegistry} {t : TCls} {n : String}
    {a : FixArgs} (h : r.WF) : (r.setEntry t n a).WF := by
  constructor
  · rw [dictKeys_setEntry]
    exact h.1
  · intro tv htv
    unfold FixtureRegistry.setEntry at htv
    simp only at htv
    rcases List.mem_map.mp htv with ⟨tv0, htv0, heq⟩
    by_cases hx : tv0.1 = t
    · rw [if_pos hx] at heq
      subst heq
      exact dictKeys_insert_nodup _ (h.2 tv0 htv0)
    · rw [if_neg hx] at heq
      subst heq
      exact h.2 tv0 htv0

theorem hasKey_setEntry {r : FixtureRegistry} {t : TCls} {n : String}
    (a : FixArgs) (ht : t ∈ dictKeys r.reg) (k : TCls × String) :
    (r.setEntry t n a).hasKey k = true ↔ k = (t, n) ∨ r.hasKey k = true := by
  obtain ⟨k1, k2⟩ := k
  unfold FixtureRegistry.hasKey
  by_cases h1 : k1 = t
  · by_cases h2 : k2 = n
    · rw [h1, h2]
      rw [lookup2_setEntry_self n a ht]
      simp
    · rw [lookup2_setEntry_ne a (Or.inr h2)]
      simp [Prod.mk.injEq, h2]
  · rw [lookup2_setEntry_ne a (Or.inl h1)]
    simp [Prod.mk.injEq, h1]

/-! Lemmas about folds of setEntry (the inner loop of update). -/

theorem foldl_setEntry_WF {t : TCls} (l : List (String × FixArgs)) :
    ∀ r0 : FixtureRegistry, r0.WF →
      (l.foldl (fun acc2 na => acc2.setEntry t na.1 na.2) r0).WF := by
  induction l with
  | nil => intro r0 h; exact h
  | cons na tl ih =>
    intro r0 h
    simp only [List.foldl_cons]
    exact ih _ (WF_setEntry h)

theorem foldl_setEntry_dictKeys {t : TCls} (l : List (String × FixArgs)) :
    ∀ r0 : FixtureRegistry,
      dictKeys ((l.foldl (fun acc2 na => acc2.setEntry t na.1 na.2) r0).reg) =
        dictKeys r0.reg := by
  induction l with
  | nil => intro r0; rfl
  | cons na tl ih =>
    intro r0
    simp only [List.foldl_cons]
    rw [ih, dictKeys_setEntry]

theorem foldl_setEntry_hasKey {t : TCls} (l : List (String × FixArgs)) :
    ∀ r0 : FixtureRegistry, t ∈ dictKeys r0.reg → ∀ k : TCls × String,
      ((l.foldl (fun acc2 na => acc2.setEntry t na.1 na.2) r0).hasKey k = true
        ↔ (k.1 = t ∧ k.2 ∈ dictKeys l) ∨ r0.hasKey k = true) := by
  induction l with
  | nil =>
    intro r0 _ k
    simp [dictKeys]
  | cons na tl ih =>
    intro r0 ht k
    simp only [List.foldl_cons]
    rw [ih _ (by rw [dictKeys_setEntry]; exact ht) k]
    rw [hasKey_setEntry na.2 ht k]
    obtain ⟨k1, k2⟩ := k
    simp only [dictKeys, List.map_cons, List.mem_cons, Prod.mk.injEq]
    tauto

/-! Lemmas about update. -/

theorem WF_update {r : FixtureRegistry} (o : FixtureRegistry) (h : r.WF) :
    (r.update o).WF := by
  unfold FixtureRegistry.update
  generalize o.reg = L
  induction L generalizing r with
  | nil => exact h
  | cons tv tl ih =>
    simp only [List.foldl_cons]
    exact ih (foldl_setEntry_WF tv.2 _ (WF_setdefault tv.1 h))

theorem hasKey_update_aux (L : List (TCls × List (String × FixArgs))) :
    ∀ (r : FixtureRegistry) (k : TCls × String),
      ((L.foldl
          (fun acc tv =>
            tv.2.foldl (fun acc2 na => acc2.setEntry tv.1 na.1 na.2)
              (acc.setdefault tv.1))
          r).hasKey k = true)
        ↔ (r.hasKey k = true ∨ ∃ tv ∈ L, k.1 = tv.1 ∧ k.2 ∈ dictKeys tv.2) := by
  induction L with
  | nil =>
    intro r k
    simp
  | cons tv tl ih =>
    intro r k
    simp only [List.foldl_cons]
    rw [ih]
    have ht : tv.1 ∈ dictKeys (r.setdefault tv.1).reg :=
      mem_dictKeys_setdefault.mpr (Or.inl rfl)
    rw [foldl_setEntry_hasKey _ _ ht k, hasKey_setdefault]
    simp only [List.mem_cons]
    constructor
    · rintro ((⟨h1, h2⟩ | h) | ⟨tv', htv', h3⟩)
      · exact Or.inr ⟨tv, Or.inl rfl, h1, h2⟩
      · exact Or.inl h
      · exact Or.inr ⟨tv', Or.inr htv', h3⟩
    · rintro (h | ⟨tv', htv' | htv', h3⟩)
      · exact Or.inl (Or.inr h)
      · subst htv'
        exact Or.inl (Or.inl h3)
      · exact Or.inr ⟨tv', htv', h3⟩

theorem mem_keys2_iff (r : FixtureRegistry) (k : TCls × String) :
    k ∈ r.keys2 ↔ ∃ tv ∈ r.reg, k.1 = tv.1 ∧ k.2 ∈ dictKeys tv.2 := by
  unfold FixtureRegistry.keys2 FixtureRegistry.entries
  constructor
  · intro h
    simp only [List.mem_map, List.mem_flatMap] at h
    obtain ⟨e, ⟨tv, htv, na, hna, hee⟩, hk⟩ := h
    subst hee
    subst hk
    exact ⟨tv, htv, rfl, List.mem_map_of_mem Prod.fst hna⟩
  · rintro ⟨tv, htv, h1, h2⟩
    simp only [dictKeys, List.mem_map] at h2
    obtain ⟨na, hna, hh⟩ := h2
    simp only [List.mem_map, List.mem_flatMap]
    refine ⟨(tv.1, na.1, na.2), ⟨tv, htv, ⟨na, hna, rfl⟩⟩, ?_⟩
    obtain ⟨k1, k2⟩ := k
    exact Prod.ext h1.symm hh

theorem hasKey_update (r o : FixtureRegistry) (k : TCls × String) :
    (r.update o).hasKey k = true ↔ r.hasKey k = true ∨ k ∈ o.keys2 := by
  unfold FixtureRegistry.update
  rw [hasKey_update_aux, mem_keys2_iff]

/-! The shape of difference: a filterMap of self via diffInner. -/

theorem diffInner_fst {o : FixtureRegistry} {t : TCls}
    {inner : List (String × FixArgs)} {x : TCls × List (String × FixArgs)}
    (h : diffInner o t inner = some x) : x.1 = t := by
  unfold diffInner at h
  split at h
  · cases h
    rfl
  · split at h
    · cases h
    · cases h
      rfl

theorem diffInner_nodup {o : FixtureRegistry} {t : TCls}
    {inner : List (String × FixArgs)} {x : TCls × List (String × FixArgs)}
    (hnd : (dictKeys inner).Nodup) (h : diffInner o t inner = some x) :
    (dictKeys x.2).Nodup := by
  unfold diffInner at h
  split at h
  · cases h
    exact hnd
  · split at h
    · cases h
    · cases h
      exact List.Nodup.sublist (List.Sublist.map _ (List.filter_sublist _)) hnd

theorem setdefault_append_last {t : TCls}
    (pre : List (TCls × List (String × FixArgs)))
    (built : List (String × FixArgs)) :
    (FixtureRegistry.mk (pre ++ [(t, built)])).setdefault t =
      ⟨pre ++ [(t, built)]⟩ :=
  setdefault_of_mem (by simp [dictKeys])

theorem setEntry_append_last {t : TCls}
    (pre : List (TCls × List (String × FixArgs)))
    (built : List (String × FixArgs)) (n : String) (a : FixArgs)
    (hpre : t ∉ dictKeys pre) :
    (FixtureRegistry.mk (pre ++ [(t, built)])).setEntry t n a =
      ⟨pre ++ [(t, dictInsert n a built)]⟩ := by
  unfold FixtureRegistry.setEntry
  have h1 : pre.map
      (fun tv => if tv.1 = t then (tv.1, dictInsert n a tv.2) else tv) = pre := by
    conv_rhs => rw [← List.map_id pre]
    apply List.map_congr_left
    intro p hp
    have hne : p.1 ≠ t := by
      intro hc
      exact hpre (by rw [← hc]; exact List.mem_map_of_mem Prod.fst hp)
    simp [hne]
  rw [List.map_append, h1]
  simp

theorem diff_inner_fold_last (t : TCls) (ovs : List (String × FixArgs))
    (inner : List (String × FixArgs)) :
    ∀ (pre : List (TCls × List (String × FixArgs)))
      (built : List (String × FixArgs)),
      t ∉ dictKeys pre →
      (∀ na ∈ inner, na.1 ∉ dictKeys built) →
      (dictKeys inner).Nodup →
      (inner.foldl
        (fun (ret2 : FixtureRegistry) na =>
          if (dictLookup na.1 ovs).isSome then ret2
          else (ret2.setdefault t).setEntry t na.1 na.2)
        ⟨pre ++ [(t, built)]⟩) =
        ⟨pre ++ [(t, built ++ inner.filter
            (fun na => !(dictLookup na.1 ovs).isSome))]⟩ := by
  induction inner with
  | nil =>
    intro pre built hpre hb hnd
    simp
  | cons na tl ih =>
    intro pre built hpre hb hnd
    simp only [dictKeys, List.map_cons, List.nodup_cons] at hnd
    simp only [List.foldl_cons]
    by_cases hs : (dictLookup na.1 ovs).isSome
    · rw [if_pos hs]
      rw [ih pre built hpre
        (fun x hx => hb x (List.mem_cons_of_mem _ hx)) hnd.2]
      have hcond : (!(dictLookup na.1 ovs).isSome) = false := by simp [hs]
      rw [List.filter_cons, hcond]
      simp
    · rw [if_neg hs]
      rw [setdefault_append_last, setEntry_append_last _ _ _ _ hpre]
      rw [dictInsert_of_not_mem na.2 (hb na (List.mem_cons_self _ _))]
      rw [ih pre (built ++ [(na.1, na.2)]) hpre ?_ hnd.2]
      · have hcond : (!(dictLookup na.1 ovs).isSome) = true := by simp [hs]
        rw [List.filter_cons, hcond]
        simp [List.append_assoc]
      · intro x hx
        simp only [dictKeys, List.map_append, List.map_cons, List.map_nil,
          List.mem_append, List.mem_singleton]
        push_neg
        refine ⟨fun hc => hb x (List.mem_cons_of_mem _ hx) hc, ?_⟩
        intro hc
        exact hnd.1 (hc ▸ List.mem_map_of_mem Prod.fst hx)

theorem diff_inner_fold_absent (t : TCls) (ovs : List (String × FixArgs))
    (inner : List (String × FixArgs)) :
    ∀ ret : FixtureRegistry, t ∉ dictKeys ret.reg →
      (dictKeys inner).Nodup →
      (inner.foldl
        (fun (ret2 : FixtureRegistry) na =>
          if (dictLookup na.1 ovs).isSome then ret2
          else (ret2.setdefault t).setEntry t na.1 na.2)
        ret).reg =
        ret.reg ++
          (if inner.filter (fun na => !(dictLookup na.1 ovs).isSome) = []
           then []
           else [(t, inner.filter (fun na => !(dictLookup na.1 ovs).isSome))]) := by
  induction inner with
  | nil =>
    intro ret hret hnd
    simp
  | cons na tl ih =>
    intro ret hret hnd
    simp only [dictKeys, List.map_cons, List.nodup_cons] at hnd
    simp only [List.foldl_cons]
    by_cases hs : (dictLookup na.1 ovs).isSome
    · rw [if_pos hs, ih ret hret hnd.2]
      have hcond : (!(dictLookup na.1 ovs).isSome) = false := by simp [hs]
      rw [List.filter_cons, hcond]
      simp
    · rw [if_neg hs]
      have h1 : ret.setdefault t = ⟨ret.reg ++ [(t, [])]⟩ :=
        congrArg FixtureRegistry.mk (setdefault_reg_of_not_mem hret)
      rw [h1, setEntry_append_last _ _ _ _ hret]
      have h2 : dictInsert na.1 na.2 ([] : List (String × FixArgs)) =
          [(na.1, na.2)] := rfl
      rw [h2]
      rw [diff_inner_fold_last t ovs tl ret.reg [(na.1, na.2)] hret ?_ hnd.2]
      · have hcond : (!(dictLookup na.1 ovs).isSome) = true := by simp [hs]
        rw [List.filter_cons, hcond]
        simp
      · intro x hx
        simp only [dictKeys, List.map_cons, List.map_nil, List.mem_singleton]
        intro hc
        exact hnd.1 (hc ▸ List.mem_map_of_mem Prod.fst hx)


theorem diff_fold (o : FixtureRegistry)
    (L : List (TCls × List (String × FixArgs))) :
    ∀ ret : FixtureRegistry,
      (dictKeys L).Nodup →
      (∀ tv ∈ L, (dictKeys tv.2).Nodup) →
      (∀ t ∈ dictKeys L, t ∉ dictKeys ret.reg) →
      (L.foldl
        (fun (ret : FixtureRegistry) tv =>
          match dictLookup tv.1 o.reg with
          | some other_variants =>
            tv.2.foldl
              (fun ret2 na =>
                if (dictLookup na.1 other_variants).isSome then ret2
                else (ret2.setdefault tv.1).setEntry tv.1 na.1 na.2)
              ret
          | none => ⟨dictInsert tv.1 tv.2 ret.reg⟩)
        ret).reg = ret.reg ++ L.filterMap (fun tv => diffInner o tv.1 tv.2) := by
  induction L with
  | nil =>
    intro ret _ _ _
    simp
  | cons tv tl ih =>
    intro ret hnd hinner hdisj
    simp only [dictKeys, List.map_cons, List.nodup_cons] at hnd
    have hret_t : tv.1 ∉ dictKeys ret.reg :=
      hdisj tv.1 (by simp [dictKeys])
    have htl_inner : ∀ tv' ∈ tl, (dictKeys tv'.2).Nodup :=
      fun tv' h => hinner tv' (List.mem_cons_of_mem _ h)
    cases hlook : dictLookup tv.1 o.reg with
    | none =>
      have h1 : diffInner o tv.1 tv.2 = some (tv.1, tv.2) := by
        unfold diffInner
        rw [hlook]
      simp only [List.foldl_cons, List.filterMap_cons, hlook, h1]
      rw [ih ⟨dictInsert tv.1 tv.2 ret.reg⟩ hnd.2 htl_inner ?_]
      · rw [dictInsert_of_not_mem tv.2 hret_t]
        simp
      · intro t ht
        rw [show (⟨dictInsert tv.1 tv.2 ret.reg⟩ : FixtureRegistry).reg =
          dictInsert tv.1 tv.2 ret.reg from rfl, mem_dictKeys_insert]
        push_neg
        constructor
        · intro hc
          rw [hc] at ht
          exact hnd.1 ht
        · exact hdisj t (List.mem_cons_of_mem _ ht)
    | some ovs =>
      have habs := diff_inner_fold_absent tv.1 ovs tv.2 ret hret_t
        (hinner tv (List.mem_cons_self _ _))
      have hcond : ∀ t, t ∈ dictKeys tl → t ∉ dictKeys ((tv.2.foldl
          (fun (ret2 : FixtureRegistry) na =>
            if (dictLookup na.1 ovs).isSome then ret2
            else (ret2.setdefault tv.1).setEntry tv.1 na.1 na.2)
          ret).reg) := by
        intro t ht
        have hkeys := congrArg dictKeys habs
        rw [hkeys]
        simp only [dictKeys, List.map_append, List.mem_append]
        push_neg
        constructor
        · exact hdisj t (List.mem_cons_of_mem _ ht)
        · intro hc
          by_cases hk : tv.2.filter
              (fun na => !(dictLookup na.1 ovs).isSome) = []
          · rw [hk] at hc
            simp at hc
          · rw [if_neg hk] at hc
            simp only [List.map_cons, List.map_nil,
              List.mem_singleton] at hc
            rw [hc] at ht
            exact hnd.1 ht
      by_cases hk : tv.2.filter (fun na => !(dictLookup na.1 ovs).isSome) = []
      · have h1 : diffInner o tv.1 tv.2 = none := by
          unfold diffInner
          simp only [hlook]
          rw [if_pos hk]
        simp only [List.foldl_cons, List.filterMap_cons, hlook, h1]
        rw [ih _ hnd.2 htl_inner hcond, habs, if_pos hk]
        simp
      · have h1 : diffInner o tv.1 tv.2 =
            some (tv.1, tv.2.filter
              (fun na => !(dictLookup na.1 ovs).isSome)) := by
          unfold diffInner
          simp only [hlook]
          rw [if_neg hk]
        simp only [List.foldl_cons, List.filterMap_cons, hlook, h1]
        rw [ih _ hnd.2 htl_inner hcond, habs, if_neg hk]
        simp [List.append_assoc]

theorem difference_reg (r o : FixtureRegistry) (hr : r.WF) :
    (r.difference o).reg =
      r.reg.filterMap (fun tv => diffInner o tv.1 tv.2) := by
  unfold FixtureRegistry.difference
  rw [diff_fold o r.reg FixtureRegistry.empty hr.1 hr.2 ?_]
  · rfl
  · intro t _
    simp [FixtureRegistry.empty, dictKeys]

theorem entries_difference (r o : FixtureRegistry) (hr : r.WF) :
    (r.difference o).entries =
      r.entries.filter (fun e => !(o.hasKey (e.1, e.2.1))) := by
  unfold FixtureRegistry.entries
  rw [difference_reg r o hr]
  generalize r.reg = L
  induction L with
  | nil => simp
  | cons tv tl ih =>
    simp only [List.filterMap_cons, List.flatMap_cons, List.filter_append]
    rw [← ih]
    cases hlook : dictLookup tv.1 o.reg with
    | none =>
      have h1 : diffInner o tv.1 tv.2 = some (tv.1, tv.2) := by
        unfold diffInner
        rw [hlook]
      rw [h1]
      simp only [List.flatMap_cons]
      congr 1
      rw [List.filter_eq_self.mpr]
      intro e he
      simp only [List.mem_map] at he
      obtain ⟨na, _, hee⟩ := he
      subst hee
      unfold FixtureRegistry.hasKey FixtureRegistry.lookup2
      simp [hlook]
    | some ovs =>
      have hfe : (tv.2.map fun na =>
            ((tv.1, na.1, na.2) : TCls × String × FixArgs)).filter
            (fun e => !(o.hasKey (e.1, e.2.1))) =
          (tv.2.filter (fun na => !(dictLookup na.1 ovs).isSome)).map
            (fun na => (tv.1, na.1, na.2)) := by
        rw [List.filter_map]
        congr 1
        apply List.filter_congr
        intro na _
        unfold FixtureRegistry.hasKey FixtureRegistry.lookup2
        simp [hlook]
      by_cases hk : tv.2.filter (fun na => !(dictLookup na.1 ovs).isSome) = []
      · have h1 : diffInner o tv.1 tv.2 = none := by
          unfold diffInner
          simp only [hlook]
          rw [if_pos hk]
        rw [h1, hfe, hk]
        simp
      · have h1 : diffInner o tv.1 tv.2 =
            some (tv.1, tv.2.filter (fun na => !(dictLookup na.1 ovs).isSome)) := by
          unfold diffInner
          simp only [hlook]
          rw [if_neg hk]
        rw [h1, hfe]
        simp only [List.flatMap_cons]

theorem mem_entries_difference (r o : FixtureRegistry) (hr : r.WF)
    (e : TCls × String × FixArgs) :
    e ∈ (r.difference o).entries ↔
      e ∈ r.entries ∧ o.hasKey (e.1, e.2.1) = false := by
  rw [entries_difference r o hr]
  simp [List.mem_filter]

theorem dictKeys_filterMap_diffInner (o : FixtureRegistry)
    (L : List (TCls × List (String × FixArgs))) :
    List.Sublist (dictKeys (L.filterMap (fun tv => diffInner o tv.1 tv.2)))
      (dictKeys L) := by
  induction L with
  | nil => simp
  | cons tv tl ih =>
    simp only [List.filterMap_cons]
    cases h : diffInner o tv.1 tv.2 with
    | none =>
      simp only [dictKeys, List.map_cons]
      exact List.Sublist.trans ih (List.sublist_cons_self _ _)
    | some x =>
      have hfst : x.1 = tv.1 := diffInner_fst h
      simp only [dictKeys, List.map_cons]
      rw [hfst]
      exact List.Sublist.cons₂ tv.1 ih

theorem WF_difference (r o : FixtureRegistry) (hr : r.WF) :
    (r.difference o).WF := by
  constructor
  · rw [difference_reg r o hr]
    exact List.Nodup.sublist (dictKeys_filterMap_diffInner o r.reg) hr.1
  · intro tv htv
    rw [difference_reg r o hr] at htv
    rcases List.mem_filterMap.mp htv with ⟨tv0, htv0, hd⟩
    exact diffInner_nodup (hr.2 tv0 htv0) hd

theorem keys2_nodup_aux (L : List (TCls × List (String × FixArgs)))
    (hout : (dictKeys L).Nodup)
    (hin : ∀ tv ∈ L, (dictKeys tv.2).Nodup) :
    ((L.flatMap fun tv => tv.2.map fun na =>
        ((tv.1, na.1, na.2) : TCls × String × FixArgs)).map
      (fun e => (e.1, e.2.1))).Nodup := by
  induction L with
  | nil => simp
  | cons tv tl ih =>
    simp only [dictKeys, List.map_cons, List.nodup_cons] at hout
    simp only [List.flatMap_cons, List.map_append]
    rw [List.nodup_append]
    refine ⟨?_, ?_, ?_⟩
    · rw [List.map_map]
      have heq : ((fun (e : TCls × String × FixArgs) => (e.1, e.2.1)) ∘
          (fun na : String × FixArgs => ((tv.1, na.1, na.2) :
            TCls × String × FixArgs))) =
          (fun na : String × FixArgs => ((tv.1, na.1) : TCls × String)) := rfl
      rw [heq]
      have h2 : (fun na : String × FixArgs => ((tv.1, na.1) : TCls × String)) =
          (Prod.mk tv.1) ∘ Prod.fst := rfl
      rw [h2, ← List.map_map]
      refine List.Nodup.map ?_ (hin tv (List.mem_cons_self _ _))
      intro x y hxy
      simpa using congrArg Prod.snd hxy
    · exact ih hout.2 (fun tv' h => hin tv' (List.mem_cons_of_mem _ h))
    · intro a ha hb
      simp only [List.mem_map] at ha
      obtain ⟨e, ⟨na, _, hee⟩, hae⟩ := ha
      subst hee
      subst hae
      simp only [List.mem_map, List.mem_flatMap] at hb
      obtain ⟨e2, ⟨tv2, htv2, na2, _, he2⟩, ha2⟩ := hb
      subst he2
      injection ha2 with h3 h4
      exact hout.1 ((show tv2.1 = tv.1 from h3) ▸
        List.mem_map_of_mem Prod.fst htv2)

theorem keys2_nodup (r : FixtureRegistry) (hr : r.WF) : r.keys2.Nodup := by
  unfold FixtureRegistry.keys2 FixtureRegistry.entries
  exact keys2_nodup_aux r.reg hr.1 hr.2


/-! Lemmas about instantiation and the BFS loop. -/

theorem instEntries_ok_keys (ctor : Ctor) (es : List (TCls × String × FixArgs)) :
    ∀ (st : ClsStore) (acc l : List Inst) (st' : ClsStore),
      instEntries ctor es st acc = .ok (l, st') →
      l.map instKey = acc.map instKey ++ es.map (fun e => (e.1, e.2.1)) := by
  induction es with
  | nil =>
    intro st acc l st' h
    rw [instEntries] at h
    cases h
    simp
  | cons e rest ih =>
    intro st acc l st' h
    obtain ⟨t, n, a⟩ := e
    rw [instEntries] at h
    cases hc : ctor t n a.penv a.part a.fid with
    | error err =>
      simp only [hc] at h
      simp at h
    | ok freg =>
      simp only [hc] at h
      rw [ih _ _ _ _ h]
      simp [instKey]

theorem instEntries_ok_regs (ctor : Ctor) (es : List (TCls × String × FixArgs)) :
    ∀ (st : ClsStore) (acc l : List Inst) (st' : ClsStore),
      instEntries ctor es st acc = .ok (l, st') →
      ∀ i ∈ l, i ∈ acc ∨ ∃ e ∈ es, i.cls = e.1 ∧ i.name = e.2.1 ∧
        ctor e.1 e.2.1 e.2.2.penv e.2.2.part e.2.2.fid = .ok i.fixtureReg := by
  induction es with
  | nil =>
    intro st acc l st' h i hi
    rw [instEntries] at h
    cases h
    exact Or.inl hi
  | cons e rest ih =>
    intro st acc l st' h i hi
    obtain ⟨t, n, a⟩ := e
    rw [instEntries] at h
    cases hc : ctor t n a.penv a.part a.fid with
    | error err =>
      simp only [hc] at h
      simp at h
    | ok freg =>
      simp only [hc] at h
      rcases ih _ _ _ _ h i hi with h2 | ⟨e2, he2, h3⟩
      · rcases List.mem_append.mp h2 with h3 | h3
        · exact Or.inl h3
        · simp only [List.mem_singleton] at h3
          subst h3
          exact Or.inr ⟨(t, n, a), List.mem_cons_self _ _, rfl, rfl, hc⟩
      · exact Or.inr ⟨e2, List.mem_cons_of_mem _ he2, h3⟩

theorem instantiate_all_ok_keys (r : FixtureRegistry) (ctor : Ctor)
    (st : ClsStore) (l : List Inst) (st' : ClsStore)
    (h : r.instantiate_all ctor st = .ok (l, st')) :
    l.map instKey = r.keys2 := by
  unfold FixtureRegistry.instantiate_all at h
  have h2 := instEntries_ok_keys ctor r.entries st [] l st' h
  simpa [FixtureRegistry.keys2] using h2

theorem instantiate_all_entries_nil (r : FixtureRegistry) (ctor : Ctor)
    (st : ClsStore) (h : r.entries = []) :
    r.instantiate_all ctor st = .ok ([], st) := by
  unfold FixtureRegistry.instantiate_all
  rw [h]
  rfl

theorem drainLoop_fst (xs : List Inst) :
    ∀ (final : List Inst) (tmp : FixtureRegistry),
      (drainLoop xs final tmp).1 = final ++ xs := by
  induction xs with
  | nil =>
    intro final tmp
    simp [drainLoop]
  | cons c cs ih =>
    intro final tmp
    rw [drainLoop, ih]
    simp

theorem drainLoop_tmp_WF (xs : List Inst) :
    ∀ (final : List Inst) (tmp : FixtureRegistry), tmp.WF →
      ((drainLoop xs final tmp).2).WF := by
  induction xs with
  | nil =>
    intro final tmp h
    exact h
  | cons c cs ih =>
    intro final tmp h
    rw [drainLoop]
    apply ih
    cases hc : c.fixtureReg with
    | none => exact h
    | some r => exact WF_update r h

theorem drainLoop_tmp_hasKey (xs : List Inst) :
    ∀ (final : List Inst) (tmp : FixtureRegistry) (k : TCls × String),
      ((drainLoop xs final tmp).2).hasKey k = true →
      tmp.hasKey k = true ∨
        ∃ i ∈ xs, ∃ r, i.fixtureReg = some r ∧ k ∈ r.keys2 := by
  induction xs with
  | nil =>
    intro final tmp k h
    exact Or.inl h
  | cons c cs ih =>
    intro final tmp k h
    rw [drainLoop] at h
    rcases ih _ _ k h with h2 | ⟨i, hi, r, hir, hk⟩
    · cases hc : c.fixtureReg with
      | none =>
        rw [hc] at h2
        exact Or.inl h2
      | some r =>
        rw [hc] at h2
        rcases (hasKey_update tmp r k).mp h2 with h3 | h3
        · exact Or.inl h3
        · exact Or.inr ⟨c, List.mem_cons_self _ _, r, hc, h3⟩
    · exact Or.inr ⟨i, List.mem_cons_of_mem _ hi, r, hir, hk⟩

theorem mem_keys2_entries {r : FixtureRegistry} {k : TCls × String}
    (h : k ∈ r.keys2) : ∃ e ∈ r.entries, (e.1, e.2.1) = k := by
  unfold FixtureRegistry.keys2 at h
  simp only [List.mem_map] at h
  obtain ⟨e, he, hk⟩ := h
  exact ⟨e, he, hk⟩

theorem bfs_nodup (ctor : Ctor) :
    ∀ (fuel : Nat) (leafs final : List Inst) (seen : FixtureRegistry)
      (st : ClsStore) (res : List Inst),
      bfsLoop ctor fuel leafs final seen st = some (.ok res) →
      ∃ tail, res = final ++ leafs.reverse ++ tail ∧
        (tail.map instKey).Nodup ∧
        ∀ k ∈ tail.map instKey, seen.hasKey k = false := by
  intro fuel
  induction fuel with
  | zero =>
    intro leafs final seen st res h
    cases h
  | succ fuel ih =>
    intro leafs final seen st res h
    cases leafs with
    | nil =>
      rw [bfsLoop] at h
      cases h
      exact ⟨[], by simp, by simp, by simp⟩
    | cons c cs =>
      rw [bfsLoop] at h
      have hWFtmp : ((drainLoop (c :: cs).reverse final
          FixtureRegistry.empty).2).WF :=
        drainLoop_tmp_WF _ _ _ (by constructor <;> simp [FixtureRegistry.empty, dictKeys])
      have hWFnew : ((drainLoop (c :: cs).reverse final
          FixtureRegistry.empty).2.difference seen).WF :=
        WF_difference _ seen hWFtmp
      cases hinst : ((drainLoop (c :: cs).reverse final
            FixtureRegistry.empty).2.difference seen).instantiate_all ctor st with
      | error es =>
        simp only [hinst] at h
        cases h
      | ok p =>
        obtain ⟨next, st2⟩ := p
        simp only [hinst] at h
        obtain ⟨tail2, hres, hnd2, hdis2⟩ := ih _ _ _ _ _ h
        have hkeys : next.map instKey =
            ((drainLoop (c :: cs).reverse final
              FixtureRegistry.empty).2.difference seen).keys2 :=
          instantiate_all_ok_keys _ ctor st next st2 hinst
        have hnew_of_mem : ∀ k ∈ next.map instKey, seen.hasKey k = false := by
          intro k hk
          rw [hkeys] at hk
          obtain ⟨e, he, hek⟩ := mem_keys2_entries hk
          have := (mem_entries_difference _ seen hWFtmp e).mp he
          rw [← hek]
          exact this.2
        have hseen2 : ∀ k, seen.hasKey k = true →
            ((seen.update ((drainLoop (c :: cs).reverse final
              FixtureRegistry.empty).2.difference seen)).hasKey k = true) := by
          intro k hk
          exact (hasKey_update _ _ k).mpr (Or.inl hk)
        have hnext_in2 : ∀ k ∈ next.map instKey,
            ((seen.update ((drainLoop (c :: cs).reverse final
              FixtureRegistry.empty).2.difference seen)).hasKey k = true) := by
          intro k hk
          rw [hkeys] at hk
          exact (hasKey_update _ _ k).mpr (Or.inr hk)
        refine ⟨next.reverse ++ tail2, ?_, ?_, ?_⟩
        · rw [hres, drainLoop_fst]
          simp [List.append_assoc]
        · rw [List.map_append]
          rw [List.nodup_append]
          refine ⟨?_, hnd2, ?_⟩
          · rw [show next.reverse.map instKey = (next.map instKey).reverse
              from List.map_reverse _ _]
            rw [List.nodup_reverse, hkeys]
            exact keys2_nodup _ hWFnew
          · intro k hk1 hk2
            have hk1b : k ∈ next.map instKey := by
              rw [show next.reverse.map instKey = (next.map instKey).reverse
                from List.map_reverse _ _] at hk1
              exact List.mem_reverse.mp hk1
            have := hdis2 k hk2
            rw [hnext_in2 k hk1b] at this
            cases this
        · intro k hk
          rw [List.map_append, List.mem_append] at hk
          rcases hk with hk | hk
          · have hk1b : k ∈ next.map instKey := by
              rw [show next.reverse.map instKey = (next.map instKey).reverse
                from List.map_reverse _ _] at hk
              exact List.mem_reverse.mp hk
            exact hnew_of_mem k hk1b
          · by_cases hsk : seen.hasKey k = true
            · have := hdis2 k hk
              rw [hseen2 k hsk] at this
              cases this
            · simpa using hsk


theorem hasKey_of_mem_keys2 {r : FixtureRegistry} (hr : r.WF)
    {k : TCls × String} (h : k ∈ r.keys2) : r.hasKey k = true := by
  rw [mem_keys2_iff] at h
  obtain ⟨tv, htv, h1, h2⟩ := h
  unfold FixtureRegistry.hasKey FixtureRegistry.lookup2
  have hl : dictLookup k.1 r.reg = some tv.2 := by
    rw [h1]
    exact dictLookup_of_mem_nodup hr.1 htv
  rw [hl]
  simpa [dictLookup_isSome_iff] using h2

theorem hasKey_empty (k : TCls × String) :
    FixtureRegistry.empty.hasKey k = false := rfl

theorem WF_empty : FixtureRegistry.empty.WF := by
  constructor <;> simp [FixtureRegistry.empty, dictKeys]

theorem bfsLoop_error (ctor : Ctor) (fuel : Nat) (c : Inst) (cs final : List Inst)
    (seen : FixtureRegistry) (st : ClsStore) (es : RErr × ClsStore)
    (hinst : (((drainLoop (c :: cs).reverse final
        FixtureRegistry.empty).2).difference seen).instantiate_all ctor st =
        .error es) :
    bfsLoop ctor (fuel + 1) (c :: cs) final seen st = some (.error es.1) := by
  rw [bfsLoop]
  simp only [hinst]

theorem bfsLoop_step_ok (ctor : Ctor) (fuel : Nat) (c : Inst)
    (cs final : List Inst) (seen : FixtureRegistry) (st : ClsStore)
    (next : List Inst) (st2 : ClsStore)
    (hinst : (((drainLoop (c :: cs).reverse final
        FixtureRegistry.empty).2).difference seen).instantiate_all ctor st =
        .ok (next, st2)) :
    bfsLoop ctor (fuel + 1) (c :: cs) final seen st =
      bfsLoop ctor fuel next
        ((drainLoop (c :: cs).reverse final FixtureRegistry.empty).1)
        (seen.update ((drainLoop (c :: cs).reverse final
          FixtureRegistry.empty).2.difference seen)) st2 := by
  rw [bfsLoop]
  simp only [hinst]

theorem bfs_terminates (ctor : Ctor) (K : List (TCls × String))
    (hK : ∀ t n penv part fid r, ctor t n penv part fid = .ok (some r) →
      ∀ k ∈ r.keys2, k ∈ K) :
    ∀ (N : Nat) (seen : FixtureRegistry) (st : ClsStore)
      (leafs final : List Inst),
      ((K.dedup.filter (fun k => !(seen.hasKey k))).length ≤ N) →
      (∀ i ∈ leafs, ∀ r, i.fixtureReg = some r → ∀ k ∈ r.keys2, k ∈ K) →
      ∃ fuel res, bfsLoop ctor fuel leafs final seen st = some res := by
  intro N
  induction N using Nat.strong_induction_on with
  | _ N ih =>
    intro seen st leafs final hm hinv
    cases leafs with
    | nil => exact ⟨1, .ok final, rfl⟩
    | cons c cs =>
      have hWFtmp : ((drainLoop (c :: cs).reverse final
          FixtureRegistry.empty).2).WF :=
        drainLoop_tmp_WF _ _ _ WF_empty
      cases hinst : (((drainLoop (c :: cs).reverse final
            FixtureRegistry.empty).2).difference seen).instantiate_all ctor st with
      | error es =>
        exact ⟨1, .error es.1, bfsLoop_error ctor 0 c cs final seen st es hinst⟩
      | ok p =>
        obtain ⟨next, st2⟩ := p
        cases hne : (((drainLoop (c :: cs).reverse final
            FixtureRegistry.empty).2).difference seen).entries with
        | nil =>
          have h0 := instantiate_all_entries_nil _ ctor st hne
          rw [h0] at hinst
          cases hinst
          refine ⟨2, .ok ((drainLoop (c :: cs).reverse final
            FixtureRegistry.empty).1), ?_⟩
          rw [bfsLoop_step_ok ctor 1 c cs final seen st _ _ h0]
          rw [bfsLoop]
        | cons e es' =>
          have he : e ∈ (((drainLoop (c :: cs).reverse final
              FixtureRegistry.empty).2).difference seen).entries := by
            rw [hne]
            exact List.mem_cons_self _ _
          have hkey := (mem_entries_difference _ seen hWFtmp e).mp he
          have hkK : (e.1, e.2.1) ∈ K := by
            have hk2 : (e.1, e.2.1) ∈ ((drainLoop (c :: cs).reverse final
                FixtureRegistry.empty).2).keys2 := by
              unfold FixtureRegistry.keys2
              exact List.mem_map_of_mem _ hkey.1
            have hhk := hasKey_of_mem_keys2 hWFtmp hk2
            rcases drainLoop_tmp_hasKey _ _ _ _ hhk with h3 | ⟨i, hi, r, hir, hk3⟩
            · rw [hasKey_empty] at h3
              cases h3
            · exact hinv i (List.mem_reverse.mp hi) r hir _ hk3
          have hmono : ∀ k : TCls × String, seen.hasKey k = true →
              (seen.update (((drainLoop (c :: cs).reverse final
                FixtureRegistry.empty).2).difference seen)).hasKey k = true :=
            fun k hk => (hasKey_update _ _ k).mpr (Or.inl hk)
          have hknew : (seen.update (((drainLoop (c :: cs).reverse final
              FixtureRegistry.empty).2).difference seen)).hasKey
                (e.1, e.2.1) = true := by
            refine (hasKey_update _ _ _).mpr (Or.inr ?_)
            unfold FixtureRegistry.keys2
            exact List.mem_map_of_mem _ he
          have hsub : List.Sublist
              (K.dedup.filter (fun k =>
                !((seen.update (((drainLoop (c :: cs).reverse final
                  FixtureRegistry.empty).2).difference seen)).hasKey k)))
              (K.dedup.filter (fun k => !(seen.hasKey k))) := by
            apply List.monotone_filter_right
            intro k hk
            simp only [Bool.not_eq_true'] at hk ⊢
            by_cases h4 : seen.hasKey k = true
            · rw [hmono k h4] at hk
              cases hk
            · simpa using h4
          have hstrict : (K.dedup.filter (fun k =>
              !((seen.update (((drainLoop (c :: cs).reverse final
                FixtureRegistry.empty).2).difference seen)).hasKey k))).length <
              (K.dedup.filter (fun k => !(seen.hasKey k))).length := by
            rcases Nat.lt_or_ge (K.dedup.filter (fun k =>
              !((seen.update (((drainLoop (c :: cs).reverse final
                FixtureRegistry.empty).2).difference seen)).hasKey k))).length
              (K.dedup.filter (fun k => !(seen.hasKey k))).length with hlt | hge
            · exact hlt
            · exfalso
              have heq := hsub.eq_of_length_le hge
              have hmem1 : (e.1, e.2.1) ∈
                  K.dedup.filter (fun k => !(seen.hasKey k)) := by
                rw [List.mem_filter]
                refine ⟨List.mem_dedup.mpr hkK, ?_⟩
                simp [hkey.2]
              rw [← heq] at hmem1
              rw [List.mem_filter] at hmem1
              rw [hknew] at hmem1
              simp at hmem1
          have hNpos : 0 < N := by
            have h5 : 0 < (K.dedup.filter
                (fun k => !(seen.hasKey k))).length :=
              Nat.pos_of_ne_zero (by
                intro h0
                rw [h0] at hstrict
                exact Nat.not_lt_zero _ hstrict)
            exact Nat.lt_of_lt_of_le h5 hm
          have hinv2 : ∀ i ∈ next, ∀ r, i.fixtureReg = some r →
              ∀ k ∈ r.keys2, k ∈ K := by
            intro i hi r hir k hk
            unfold FixtureRegistry.instantiate_all at hinst
            rcases instEntries_ok_regs ctor _ st [] next st2 hinst i hi with
              h2 | ⟨e2, _, _, _, hctor⟩
            · simp at h2
            · rw [hir] at hctor
              exact hK _ _ _ _ _ r hctor k hk
          obtain ⟨fuel, res, hrun⟩ := ih ((K.dedup.filter (fun k =>
              !((seen.update (((drainLoop (c :: cs).reverse final
                FixtureRegistry.empty).2).difference seen)).hasKey k))).length)
            (Nat.lt_of_lt_of_le hstrict hm)
            (seen.update (((drainLoop (c :: cs).reverse final
              FixtureRegistry.empty).2).difference seen)) st2 next
            ((drainLoop (c :: cs).reverse final FixtureRegistry.empty).1)
            (Nat.le_refl _) hinv2
          refine ⟨fuel + 1, res, ?_⟩
          rw [bfsLoop_step_ok ctor fuel c cs final seen st next st2 hinst]
          exact hrun


theorem instEntries_error_store (ctor : Ctor)
    (pre : List (TCls × String × FixArgs)) :
    ∀ (st : ClsStore) (acc : List Inst),
      (∀ x ∈ pre, ∃ fr,
        ctor x.1 x.2.1 x.2.2.penv x.2.2.part x.2.2.fid = .ok fr) →
      ∀ (t : TCls) (n : String) (a : FixArgs)
        (rest : List (TCls × String × FixArgs)) (e : RErr),
        ctor t n a.penv a.part a.fid = .error e →
        ∃ st', instEntries ctor (pre ++ (t, n, a) :: rest) st acc =
            .error (e, st') ∧
          st' t = ⟨.defined n, .defined a.penv, .defined a.part⟩ := by
  induction pre with
  | nil =>
    intro st acc _ t n a rest e hfail
    refine ⟨setScoped st t n a.penv a.part, ?_, ?_⟩
    · simp only [List.nil_append]
      rw [instEntries]
      simp only [hfail]
    · simp [setScoped]
  | cons x pre2 ih =>
    intro st acc hpre t n a rest e hfail
    obtain ⟨t0, n0, a0⟩ := x
    obtain ⟨fr, hfr⟩ := hpre _ (List.mem_cons_self _ _)
    have hfr2 : ctor t0 n0 a0.penv a0.part a0.fid = .ok fr := hfr
    simp only [List.cons_append]
    rw [instEntries]
    simp only [hfr2]
    exact ih _ _ (fun y hy => hpre y (List.mem_cons_of_mem _ hy))
      t n a rest e hfail

theorem leaf_inner_mem (lc : LeafCtor) (t : TCls) (vs : List Nat) :
    ∀ acc : List Inst, ∀ i ∈ vs.foldl
      (fun acc2 a =>
        match lc t a with
        | .ok n freg => acc2 ++ [⟨t, n, freg⟩]
        | .skipErr => acc2
        | .err => acc2) acc,
      i ∈ acc ∨ ∃ a n fr, lc t a = .ok n fr ∧ i = ⟨t, n, fr⟩ := by
  induction vs with
  | nil =>
    intro acc i hi
    exact Or.inl hi
  | cons a rest ih =>
    intro acc i hi
    simp only [List.foldl_cons] at hi
    rcases ih _ i hi with h2 | h2
    · cases hl : lc t a with
      | ok n freg =>
        simp only [hl] at h2
        rcases List.mem_append.mp h2 with h3 | h3
        · exact Or.inl h3
        · simp only [List.mem_singleton] at h3
          exact Or.inr ⟨a, n, freg, hl, h3⟩
      | skipErr =>
        simp only [hl] at h2
        exact Or.inl h2
      | err =>
        simp only [hl] at h2
        exact Or.inl h2
    · exact Or.inr h2

theorem leafConstruct_fold_mem (lc : LeafCtor) (sk : List TCls)
    (ts : List (TCls × List Nat)) :
    ∀ acc : List Inst, ∀ i ∈ ts.foldl
      (fun acc tv =>
        if tv.1 ∈ sk then acc
        else tv.2.foldl
          (fun acc2 a =>
            match lc tv.1 a with
            | .ok n freg => acc2 ++ [⟨tv.1, n, freg⟩]
            | .skipErr => acc2
            | .err => acc2) acc) acc,
      i ∈ acc ∨ ∃ t a n fr, lc t a = .ok n fr ∧ i = ⟨t, n, fr⟩ := by
  induction ts with
  | nil =>
    intro acc i hi
    exact Or.inl hi
  | cons tv rest ih =>
    intro acc i hi
    simp only [List.foldl_cons] at hi
    rcases ih _ i hi with h2 | h2
    · by_cases hsk : tv.1 ∈ sk
      · rw [if_pos hsk] at h2
        exact Or.inl h2
      · rw [if_neg hsk] at h2
        rcases leaf_inner_mem lc tv.1 tv.2 acc i h2 with h3 | ⟨a, n, fr, h4, h5⟩
        · exact Or.inl h3
        · exact Or.inr ⟨tv.1, a, n, fr, h4, h5⟩
    · exact Or.inr h2

theorem leafConstruct_shape (lc : LeafCtor) (tr : TestRegistry) :
    ∀ i ∈ leafConstruct lc tr,
      ∃ t a n fr, lc t a = .ok n fr ∧ i = ⟨t, n, fr⟩ := by
  intro i hi
  unfold leafConstruct at hi
  rcases leafConstruct_fold_mem lc tr.skip_tests tr.tests [] i hi with h | h
  · simp at h
  · exact h


/-! Claim theorems. -/

/-- C2: the list returned by TestRegistry.instantiate_all contains at most
one instance per distinct (fixture class, scoped fixture name) key: beyond
the leaf instances, the fixture instances produced by the level-order
expansion have pairwise distinct (class, name) keys, even when several
leaf tests or several waves request the identical scoped name; and
FixtureRegistry.difference keeps exactly the (class, name) entries of self
whose key is absent from the other registry. -/
theorem C2_at_most_one_per_key (lc : LeafCtor) (ctor : Ctor)
    (tr : TestRegistry) (st : ClsStore) (fuel : Nat) (res : List Inst)
    (h : tr.instantiate_all lc ctor st fuel = some (.ok res)) :
    (∃ fixtures, res = (leafConstruct lc tr).reverse ++ fixtures ∧
      (fixtures.map instKey).Nodup) ∧
    ∀ (a b : FixtureRegistry), a.WF →
      (a.difference b).entries =
        a.entries.filter (fun e => !(b.hasKey (e.1, e.2.1))) := by
  constructor
  · unfold TestRegistry.instantiate_all at h
    obtain ⟨tail, hres, hnd, _⟩ := bfs_nodup ctor fuel _ [] _ st res h
    exact ⟨tail, by simpa using hres, hnd⟩
  · intro a b ha
    exact entries_difference a b ha

/-- Witness for C2 at a concrete registry with one leaf test and no
fixture requests. -/
theorem C2_witness :
    (∃ fixtures, [(⟨0, "t", none⟩ : Inst)] =
        (leafConstruct noRegLc oneTr).reverse ++ fixtures ∧
      (fixtures.map instKey).Nodup) ∧
    ∀ (a b : FixtureRegistry), a.WF →
      (a.difference b).entries =
        a.entries.filter (fun e => !(b.hasKey (e.1, e.2.1))) :=
  C2_at_most_one_per_key noRegLc noneCtor oneTr st0 3 [⟨0, "t", none⟩] rfl

/-- C10: when a fixture constructor raises during
FixtureRegistry.instantiate_all, the exception propagates to the caller as
the result of the call (the partial instance list is discarded: the error
result carries no instances), and the target class's name,
valid_prog_environs and valid_systems attributes are left holding the
failing entry's scoped values rather than being reset to the Undefined
sentinel, since the reset runs only after a successful construction. -/
theorem C10_fixture_ctor_failure (ctor : Ctor) (r : FixtureRegistry)
    (st : ClsStore) (pre rest : List (TCls × String × FixArgs))
    (t : TCls) (n : String) (a : FixArgs) (e : RErr)
    (hsplit : r.entries = pre ++ (t, n, a) :: rest)
    (hpre : ∀ x ∈ pre, ∃ fr,
      ctor x.1 x.2.1 x.2.2.penv x.2.2.part x.2.2.fid = .ok fr)
    (hfail : ctor t n a.penv a.part a.fid = .error e) :
    ∃ st', r.instantiate_all ctor st = .error (e, st') ∧
      st' t = ⟨.defined n, .defined a.penv, .defined a.part⟩ := by
  unfold FixtureRegistry.instantiate_all
  rw [hsplit]
  exact instEntries_error_store ctor pre st [] hpre t n a rest e hfail

/-- Witness for C10 at a concrete one-entry registry whose constructor
raises exception 7. -/
theorem C10_witness :
    ∃ st', (FixtureRegistry.mk
        [(0, [("x", ⟨1, ["e"], ["p"]⟩)])]).instantiate_all failCtor st0 =
        .error (7, st') ∧
      st' 0 = ⟨.defined "x", .defined ["e"], .defined ["p"]⟩ :=
  C10_fixture_ctor_failure failCtor _ st0 [] [] 0 "x" ⟨1, ["e"], ["p"]⟩ 7
    rfl (by intro x hx; simp at hx) rfl


theorem diff_chainReg (s : String) (seen : FixtureRegistry)
    (h : seen.hasKey (0, s ++ "x") = false) :
    (chainReg s).difference seen = chainReg s := by
  unfold FixtureRegistry.difference chainReg
  simp only [List.foldl_cons, List.foldl_nil]
  cases hl : dictLookup 0 seen.reg with
  | none => rfl
  | some ovs =>
    have h2 : (dictLookup (s ++ "x") ovs).isSome = false := by
      unfold FixtureRegistry.hasKey FixtureRegistry.lookup2 at h
      rw [hl] at h
      simpa using h
    simp only [h2]
    rfl

theorem bad_bfs_none :
    ∀ (fuel : Nat) (s : String) (final : List Inst)
      (seen : FixtureRegistry) (st : ClsStore),
      (∀ t n, seen.hasKey (t, n) = true → n.length ≤ s.length) →
      bfsLoop badCtor fuel [⟨0, s, some (chainReg s)⟩] final seen st =
        none := by
  intro fuel
  induction fuel with
  | zero =>
    intro s final seen st hb
    rfl
  | succ fuel ih =>
    intro s final seen st hb
    have hxlen : (s ++ "x").length = s.length + 1 := by
      rw [String.length_append]
      rfl
    have hkey : seen.hasKey (0, s ++ "x") = false := by
      by_cases h : seen.hasKey (0, s ++ "x") = true
      · have h2 := hb 0 (s ++ "x") h
        rw [hxlen] at h2
        omega
      · simpa using h
    have hdrain : (drainLoop ([⟨0, s, some (chainReg s)⟩] :
        List Inst).reverse final FixtureRegistry.empty).2 = chainReg s := rfl
    have hdiff : ((drainLoop ([⟨0, s, some (chainReg s)⟩] :
        List Inst).reverse final FixtureRegistry.empty).2).difference seen =
        chainReg s := by
      rw [hdrain]
      exact diff_chainReg s seen hkey
    have hinst : (((drainLoop ([⟨0, s, some (chainReg s)⟩] :
        List Inst).reverse final FixtureRegistry.empty).2).difference
          seen).instantiate_all badCtor st =
        .ok ([⟨0, s ++ "x", some (chainReg (s ++ "x"))⟩],
          resetCls (setScoped st 0 (s ++ "x") ["e"] ["p"]) 0) := by
      rw [hdiff]
      rfl
    rw [bfsLoop_step_ok badCtor fuel _ [] final seen st _ _ hinst]
    rw [hdiff]
    apply ih (s ++ "x")
    intro t n hk
    rcases (hasKey_update seen (chainReg s) (t, n)).mp hk with h2 | h2
    · have := hb t n h2
      rw [hxlen]
      omega
    · have h3 : (chainReg s).keys2 = [(0, s ++ "x")] := rfl
      rw [h3] at h2
      simp only [List.mem_singleton, Prod.mk.injEq] at h2
      rw [h2.2]

/-- C7 (as stated) fails: with mutually test-scoped fixtures the branch
name grows at every level, so the (class, name) keys never repeat and the
BFS never reaches an empty wave; no amount of fuel makes
TestRegistry.instantiate_all return. -/
theorem C7_counterexample :
    ¬ ∃ fuel res, oneTr.instantiate_all badLc badCtor st0 fuel =
      some res := by
  rintro ⟨fuel, res, h⟩
  unfold TestRegistry.instantiate_all at h
  have hleaf : leafConstruct badLc oneTr =
      [⟨0, "s", some (chainReg "s")⟩] := rfl
  rw [hleaf] at h
  rw [bad_bfs_none fuel "s" [] FixtureRegistry.empty st0 ?_] at h
  · cases h
  · intro t n hk
    rw [hasKey_empty] at hk
    cases hk

/-- C7 (amended): the level-order expansion terminates whenever the
(class, scoped-name) keys of every fixture registry produced by leaf and
fixture construction are drawn from one finite set K; some fuel then makes
TestRegistry.instantiate_all return (with cyclic test-scoped fixtures no
such K exists and the loop runs forever, as the counterexample shows). -/
theorem C7_bfs_termination (lc : LeafCtor) (ctor : Ctor)
    (tr : TestRegistry) (st : ClsStore) (K : List (TCls × String))
    (hK : ∀ t n penv part fid r, ctor t n penv part fid = .ok (some r) →
      ∀ k ∈ r.keys2, k ∈ K)
    (hlc : ∀ t a n r, lc t a = .ok n (some r) → ∀ k ∈ r.keys2, k ∈ K) :
    ∃ fuel res, tr.instantiate_all lc ctor st fuel = some res := by
  unfold TestRegistry.instantiate_all
  apply bfs_terminates ctor K hK
    ((K.dedup.filter (fun k =>
      !(FixtureRegistry.empty.hasKey k))).length)
    FixtureRegistry.empty st (leafConstruct lc tr) [] (Nat.le_refl _)
  intro i hi r hir k hk
  obtain ⟨t, a, n, fr, hok, hieq⟩ := leafConstruct_shape lc tr i hi
  subst hieq
  have hir2 : fr = some r := hir
  rw [hir2] at hok
  exact hlc t a n r hok k hk

/-- Witness for C7 (amended) with a leaf that requests no fixtures. -/
theorem C7_witness :
    ∃ fuel res, oneTr.instantiate_all noRegLc noneCtor st0 fuel =
      some res := by
  apply C7_bfs_termination noRegLc noneCtor oneTr st0 []
  · intro t n penv part fid r h
    simp [noneCtor] at h
  · intro t a n r h
    simp [noRegLc] at h


theorem leafConstruct_fold_drop (lc : LeafCtor) (sk : List TCls)
    (ts1 ts2 : List (TCls × List Nat)) (t : TCls) (v1 v2 : List Nat)
    (a : Nat) (ha : lc t a = .skipErr ∨ lc t a = .err) :
    ∀ acc : List Inst,
      (ts1 ++ (t, v1 ++ a :: v2) :: ts2).foldl
        (fun acc tv =>
          if tv.1 ∈ sk then acc
          else tv.2.foldl
            (fun acc2 b =>
              match lc tv.1 b with
              | .ok n freg => acc2 ++ [⟨tv.1, n, freg⟩]
              | .skipErr => acc2
              | .err => acc2) acc) acc =
      (ts1 ++ (t, v1 ++ v2) :: ts2).foldl
        (fun acc tv =>
          if tv.1 ∈ sk then acc
          else tv.2.foldl
            (fun acc2 b =>
              match lc tv.1 b with
              | .ok n freg => acc2 ++ [⟨tv.1, n, freg⟩]
              | .skipErr => acc2
              | .err => acc2) acc) acc := by
  intro acc
  rw [List.foldl_append, List.foldl_append]
  simp only [List.foldl_cons]
  congr 1
  by_cases hsk : t ∈ sk
  · simp only [if_pos hsk]
  · simp only [if_neg hsk]
    rw [List.foldl_append, List.foldl_append]
    simp only [List.foldl_cons]
    congr 1
    rcases ha with ha | ha <;> simp only [ha]

/-- C1 (amended): an exception during leaf construction in step 1 of
TestRegistry.instantiate_all (a SkipTestError or any other exception) is
caught: only that instance is dropped and the run proceeds exactly as if
that one variant had not been registered.  But an exception while
constructing a fixture during the level-order expansion is not caught
anywhere (FixtureRegistry.instantiate_all has no handler) and propagates
out of TestRegistry.instantiate_all, aborting the remaining
construction. -/
theorem C1_leaf_isolation_fixture_propagation (lc : LeafCtor) (ctor : Ctor)
    (st : ClsStore) (fuel : Nat) :
    (∀ (tr1 tr2 : TestRegistry) (ts1 ts2 : List (TCls × List Nat))
      (t : TCls) (v1 v2 : List Nat) (a : Nat),
      tr1.tests = ts1 ++ (t, v1 ++ a :: v2) :: ts2 →
      tr2.tests = ts1 ++ (t, v1 ++ v2) :: ts2 →
      tr1.skip_tests = tr2.skip_tests →
      (lc t a = .skipErr ∨ lc t a = .err) →
      tr1.instantiate_all lc ctor st fuel =
        tr2.instantiate_all lc ctor st fuel) ∧
    ∀ (c : Inst) (cs final : List Inst) (seen : FixtureRegistry)
      (es : RErr × ClsStore),
      ((((drainLoop (c :: cs).reverse final
          FixtureRegistry.empty).2).difference seen).instantiate_all ctor st
        = .error es) →
      bfsLoop ctor (fuel + 1) (c :: cs) final seen st =
        some (.error es.1) := by
  constructor
  · intro tr1 tr2 ts1 ts2 t v1 v2 a h1 h2 hsk ha
    unfold TestRegistry.instantiate_all
    have hleaf : leafConstruct lc tr1 = leafConstruct lc tr2 := by
      unfold leafConstruct
      rw [h1, h2, hsk]
      exact leafConstruct_fold_drop lc tr2.skip_tests ts1 ts2 t v1 v2 a ha []
    rw [hleaf]
  · intro c cs final seen es hinst
    exact bfsLoop_error ctor fuel c cs final seen st es hinst

/-- Witness for C1 (amended): dropping the failing variant leaves the
other variant's instantiation unchanged, and a concrete failing fixture
constructor makes the loop return the error. -/
theorem C1_witness :
    (TestRegistry.instantiate_all ⟨[(0, [0, 1])], []⟩ mixLc noneCtor st0 3 =
      TestRegistry.instantiate_all ⟨[(0, [0])], []⟩ mixLc noneCtor st0 3) ∧
    bfsLoop failCtor 1
      [⟨0, "leaf", some ⟨[(1, [("fx", ⟨0, ["e"], ["p"]⟩)])]⟩⟩] []
      FixtureRegistry.empty st0 = some (.error 7) := by
  constructor
  · exact (C1_leaf_isolation_fixture_propagation mixLc noneCtor st0 3).1
      ⟨[(0, [0, 1])], []⟩ ⟨[(0, [0])], []⟩ [] [] 0 [0] [] 1
      rfl rfl rfl (Or.inr rfl)
  · exact (C1_leaf_isolation_fixture_propagation mixLc failCtor st0 0).2
      ⟨0, "leaf", some ⟨[(1, [("fx", ⟨0, ["e"], ["p"]⟩)])]⟩⟩ [] []
      FixtureRegistry.empty (7, setScoped st0 1 "fx" ["e"] ["p"]) rfl

/-- C1 (as stated) fails: a fixture constructor exception during the
expansion is not caught and TestRegistry.instantiate_all returns the
propagated error instead of a list, at this concrete registry whose single
leaf requests one fixture whose constructor raises exception 7. -/
theorem C1_counterexample :
    oneTr.instantiate_all oneFixLc failCtor st0 5 = some (.error 7) := rfl


/-! Lemmas about the hook registry. -/

theorem dictLookup_cons_self [DecidableEq α] (k : α) (v : β)
    (d : List (α × β)) : dictLookup k ((k, v) :: d) = some v := by
  rw [dictLookup, if_pos rfl]

theorem osAdd_dup (s : List Hook) (h h0 : Hook) (hmem : h0 ∈ s)
    (hn : h0.hname = h.hname) : osAdd s h = s := by
  unfold osAdd
  rw [if_pos]
  exact List.any_eq_true.mpr ⟨h0, hmem, by simp [hn]⟩

theorem osFold_map (ph : String) (hs : List Hook) :
    ∀ (pre : List (String × List Hook)) (cur : List Hook),
      (∀ qv ∈ pre, qv.1 ≠ ph) →
      hs.foldl
        (fun (acc2 : List (String × List Hook)) h => acc2.map fun qv =>
          if qv.1 = ph then (qv.1, osAdd qv.2 h) else qv)
        (pre ++ [(ph, cur)]) = pre ++ [(ph, hs.foldl osAdd cur)] := by
  induction hs with
  | nil =>
    intro pre cur hpre
    simp
  | cons h rest ih =>
    intro pre cur hpre
    simp only [List.foldl_cons]
    have hmap : (pre ++ [(ph, cur)]).map (fun qv =>
        if qv.1 = ph then (qv.1, osAdd qv.2 h) else qv) =
        pre ++ [(ph, osAdd cur h)] := by
      rw [List.map_append]
      congr 1
      · conv_rhs => rw [← List.map_id pre]
        apply List.map_congr_left
        intro p hp
        simp [hpre p hp]
      · simp
    rw [hmap]
    exact ih pre (osAdd cur h) hpre

theorem hr_update_empty_single (ph : String) (hs : List Hook) :
    HookRegistry.update ⟨[]⟩ [(ph, hs)] = ⟨[(ph, hs.foldl osAdd [])]⟩ := by
  unfold HookRegistry.update
  simp only [List.foldl_cons, List.foldl_nil]
  have h := osFold_map ph hs [] [] (by simp)
  simp only [List.nil_append] at h
  rw [show (match dictLookup ph ([] : List (String × List Hook)) with
      | some _ => ([] : List (String × List Hook))
      | none => [] ++ [(ph, [])]) = ([(ph, ([] : List Hook))] :
        List (String × List Hook)) from rfl]
  rw [h]

theorem hr_update_cons_self (ph : String) (cur : List Hook)
    (d : List (String × List Hook)) (hs : List Hook)
    (hd : ∀ qv ∈ d, qv.1 ≠ ph) :
    HookRegistry.update ⟨(ph, cur) :: d⟩ [(ph, hs)] =
      ⟨(ph, hs.foldl osAdd cur) :: d⟩ := by
  unfold HookRegistry.update
  simp only [List.foldl_cons, List.foldl_nil]
  rw [show (match dictLookup ph ((ph, cur) :: d) with
      | some _ => ((ph, cur) :: d)
      | none => ((ph, cur) :: d) ++ [(ph, [])]) = ((ph, cur) :: d) from by
    rw [dictLookup_cons_self]]
  have h2 : hs.foldl
      (fun (acc2 : List (String × List Hook)) h => acc2.map fun qv =>
        if qv.1 = ph then (qv.1, osAdd qv.2 h) else qv)
      ((ph, cur) :: d) = (ph, hs.foldl osAdd cur) :: d := by
    induction hs generalizing cur with
    | nil => simp
    | cons h1 rest ih =>
      have hmap2 : ((ph, cur) :: d).map (fun qv =>
          if qv.1 = ph then (qv.1, osAdd qv.2 h1) else qv) =
          (ph, osAdd cur h1) :: d := by
        rw [List.map_cons]
        congr 1
        · simp
        · conv_rhs => rw [← List.map_id d]
          apply List.map_congr_left
          intro p hp
          simp [hd p hp]
      rw [List.foldl_cons, List.foldl_cons, hmap2]
      exact ih (osAdd cur h1)
  rw [h2]

theorem pre_ne_post (f : String) : ("pre_" ++ f) ≠ ("post_" ++ f) := by
  intro h
  have h2 := congrArg String.length h
  rw [String.length_append, String.length_append] at h2
  have h3 : ("pre_" : String).length = 4 := by decide
  have h4 : ("post_" : String).length = 5 := by decide
  rw [h3, h4] at h2
  omega

/-- C4: when a subclass overrides a base hook of the same name on the same
phase and the subclass registry is merged before the base's, name-based
set membership makes the base's insertion a no-op, so the phase bucket
holds exactly one hook of that name (the subclass's Hook object), and
dispatch invokes the implementation found by name lookup on the instance,
which is the subclass's implementation. -/
theorem C4_hook_override (n fname : String) (subImpl baseImpl bodyImpl : Nat)
    (obj : TestObj) (hdis : obj.disabled_hooks = [])
    (hm : obj.methodOf n = subImpl) :
    dictLookup ("pre_" ++ fname)
      ((HookRegistry.update ⟨[]⟩
          [("pre_" ++ fname,
            [Hook.mk ⟨n, subImpl, ["pre_" ++ fname], false⟩])]).update
        [("pre_" ++ fname,
          [Hook.mk ⟨n, baseImpl, ["pre_" ++ fname], false⟩])]).hooks =
      some [Hook.mk ⟨n, subImpl, ["pre_" ++ fname], false⟩] ∧
    attach_hooks_trace
      ((HookRegistry.update ⟨[]⟩
          [("pre_" ++ fname,
            [Hook.mk ⟨n, subImpl, ["pre_" ++ fname], false⟩])]).update
        [("pre_" ++ fname,
          [Hook.mk ⟨n, baseImpl, ["pre_" ++ fname], false⟩])])
      fname obj bodyImpl = [subImpl, bodyImpl] := by
  have h1 : HookRegistry.update ⟨[]⟩
      [("pre_" ++ fname,
        [Hook.mk ⟨n, subImpl, ["pre_" ++ fname], false⟩])] =
      ⟨[("pre_" ++ fname,
        [Hook.mk ⟨n, subImpl, ["pre_" ++ fname], false⟩])]⟩ := by
    rw [hr_update_empty_single]
    rfl
  have h2 : ((HookRegistry.update ⟨[]⟩
      [("pre_" ++ fname,
        [Hook.mk ⟨n, subImpl, ["pre_" ++ fname], false⟩])]).update
      [("pre_" ++ fname,
        [Hook.mk ⟨n, baseImpl, ["pre_" ++ fname], false⟩])]) =
      ⟨[("pre_" ++ fname,
        [Hook.mk ⟨n, subImpl, ["pre_" ++ fname], false⟩])]⟩ := by
    rw [h1]
    rw [hr_update_cons_self _ _ [] _ (by simp)]
    simp only [List.foldl_cons, List.foldl_nil]
    rw [osAdd_dup [Hook.mk ⟨n, subImpl, ["pre_" ++ fname], false⟩]
      (Hook.mk ⟨n, baseImpl, ["pre_" ++ fname], false⟩)
      (Hook.mk ⟨n, subImpl, ["pre_" ++ fname], false⟩)
      (List.mem_singleton.mpr rfl) rfl]
  rw [h2]
  constructor
  · exact dictLookup_cons_self _ _ _
  · unfold attach_hooks_trace select_hooks
    rw [dictLookup_cons_self]
    have h3 : dictLookup ("post_" ++ fname)
        ([("pre_" ++ fname,
          [Hook.mk ⟨n, subImpl, ["pre_" ++ fname], false⟩])] :
          List (String × List Hook)) = none := by
      rw [dictLookup, if_neg (pre_ne_post fname), dictLookup]
    rw [h3]
    simp only [hdis]
    simp [Hook.hname, hm]

/-- Witness for C4 at a concrete hook name and implementations. -/
theorem C4_witness :
    dictLookup ("pre_" ++ "setup")
      ((HookRegistry.update ⟨[]⟩
          [("pre_" ++ "setup",
            [Hook.mk ⟨"h", 1, ["pre_" ++ "setup"], false⟩])]).update
        [("pre_" ++ "setup",
          [Hook.mk ⟨"h", 2, ["pre_" ++ "setup"], false⟩])]).hooks =
      some [Hook.mk ⟨"h", 1, ["pre_" ++ "setup"], false⟩] ∧
    attach_hooks_trace
      ((HookRegistry.update ⟨[]⟩
          [("pre_" ++ "setup",
            [Hook.mk ⟨"h", 1, ["pre_" ++ "setup"], false⟩])]).update
        [("pre_" ++ "setup",
          [Hook.mk ⟨"h", 2, ["pre_" ++ "setup"], false⟩])])
      "setup" ⟨fun m => if m = "h" then 1 else 0, []⟩ 9 = [1, 9] :=
  C4_hook_override "h" "setup" 1 2 9 ⟨fun m => if m = "h" then 1 else 0, []⟩
    rfl (by decide)

/-- C5 (amended): only the post form maps the user stage names to the
pipeline wait functions: run_after attaches compile to post_compile_wait
and run to post_run_wait, while run_before attaches them unchanged, to
pre_compile and pre_run. -/
theorem C5_stage_mapping :
    ∀ f : FnMeta,
      (run_before "compile").map (fun d => (d f).attach) =
        .ok (f.attach ++ ["pre_compile"]) ∧
      (run_after "compile").map (fun d => (d f).attach) =
        .ok (f.attach ++ ["post_compile_wait"]) ∧
      (run_before "run").map (fun d => (d f).attach) =
        .ok (f.attach ++ ["pre_run"]) ∧
      (run_after "run").map (fun d => (d f).attach) =
        .ok (f.attach ++ ["post_run_wait"]) := by
  intro f
  refine ⟨?_, ?_, ?_, ?_⟩ <;> rfl

/-- C5 (as stated) fails: a method tagged to run before stage compile is
attached to pre_compile, which is not the claimed pre_compile_wait
(run_before performs no stage-name mapping). -/
theorem C5_counterexample :
    (run_before "compile").map
      (fun d => (d ⟨"m", 0, [], false⟩).attach) = .ok ["pre_compile"] ∧
    ("pre_compile" : String) ≠ "pre_compile_wait" := by
  constructor
  · rfl
  · decide


theorem optBucket_nil (o : Option (List Hook)) : optBucket o [] = o := by
  cases o <;> simp [optBucket]

theorem optBucket_assoc (o : Option (List Hook)) (l1 l2 : List Hook) :
    optBucket (optBucket o l1) l2 = optBucket o (l1 ++ l2) := by
  cases o with
  | none =>
    by_cases h1 : l1 = []
    · subst h1
      simp [optBucket]
    · by_cases h2 : l2 = [] <;>
        simp [optBucket, h1, h2, List.append_eq_nil]
  | some l0 => simp [optBucket]

theorem attach_fold_lookup_not_mem (v : FnMeta) (ph : String)
    (phs : List String) :
    ∀ lh : List (String × List Hook), ph ∉ phs →
      dictLookup ph (phs.foldl
        (fun lh2 phase =>
          match dictLookup phase lh2 with
          | some l => dictInsert phase (l ++ [Hook.mk v]) lh2
          | none => dictInsert phase [Hook.mk v] lh2)
        lh) = dictLookup ph lh := by
  induction phs with
  | nil =>
    intro lh _
    rfl
  | cons p rest ih =>
    intro lh hmem
    simp only [List.mem_cons] at hmem
    push_neg at hmem
    simp only [List.foldl_cons]
    rw [ih _ hmem.2]
    cases hl : dictLookup p lh with
    | some l =>
      simp only [hl]
      exact dictLookup_insert_ne _ _ hmem.1
    | none =>
      simp only [hl]
      exact dictLookup_insert_ne _ _ hmem.1

theorem attach_fold_lookup (v : FnMeta) (ph : String) (phs : List String) :
    ∀ lh : List (String × List Hook), phs.Nodup →
      dictLookup ph (phs.foldl
        (fun lh2 phase =>
          match dictLookup phase lh2 with
          | some l => dictInsert phase (l ++ [Hook.mk v]) lh2
          | none => dictInsert phase [Hook.mk v] lh2)
        lh) =
      optBucket (dictLookup ph lh)
        (if ph ∈ phs then [Hook.mk v] else []) := by
  induction phs with
  | nil =>
    intro lh _
    simp [optBucket_nil]
  | cons p rest ih =>
    intro lh hnd
    rw [List.nodup_cons] at hnd
    simp only [List.foldl_cons]
    by_cases hp : p = ph
    · subst hp
      have hrest : p ∉ rest := hnd.1
      rw [attach_fold_lookup_not_mem v p rest _ hrest]
      cases hl : dictLookup p lh with
      | some l =>
        simp only [hl, dictLookup_insert_self]
        simp [optBucket]
      | none =>
        simp only [hl, dictLookup_insert_self]
        simp [optBucket]
    · rw [ih _ hnd.2]
      have hpres : ∀ d : List (String × List Hook),
          dictLookup ph (match dictLookup p d with
            | some l => dictInsert p (l ++ [Hook.mk v]) d
            | none => dictInsert p [Hook.mk v] d) = dictLookup ph d := by
        intro d
        cases hl : dictLookup p d with
        | some l =>
          simp only
          exact dictLookup_insert_ne _ _ (Ne.symm hp)
        | none =>
          simp only
          exact dictLookup_insert_ne _ _ (Ne.symm hp)
      rw [hpres lh]
      by_cases hmr : ph ∈ rest
      · rw [if_pos hmr, if_pos (List.mem_cons_of_mem _ hmr)]
      · rw [if_neg hmr, if_neg ?_]
        intro hc
        rcases List.mem_cons.mp hc with hc | hc
        · exact hp hc.symm
        · exact hmr hc

theorem buildLocal_lookup (ph : String) (ns : List FnMeta) :
    ∀ lh : List (String × List Hook),
      (∀ v ∈ ns, v.attach.Nodup) →
      dictLookup ph (ns.foldl
        (fun lh v =>
          v.attach.foldl
            (fun lh2 phase =>
              match dictLookup phase lh2 with
              | some l => dictInsert phase (l ++ [Hook.mk v]) lh2
              | none => dictInsert phase [Hook.mk v] lh2)
            lh)
        lh) =
      optBucket (dictLookup ph lh)
        ((ns.filter (fun v => decide (ph ∈ v.attach))).map Hook.mk) := by
  induction ns with
  | nil =>
    intro lh _
    simp [optBucket_nil]
  | cons v rest ih =>
    intro lh hat
    simp only [List.foldl_cons]
    rw [ih _ (fun w hw => hat w (List.mem_cons_of_mem _ hw))]
    rw [attach_fold_lookup v ph v.attach lh (hat v (List.mem_cons_self _ _))]
    rw [optBucket_assoc]
    rw [List.filter_cons]
    by_cases hm : ph ∈ v.attach
    · rw [if_pos hm, if_pos (by simpa using hm), List.map_cons]
      rfl
    · rw [if_neg hm, if_neg (by simpa using hm), List.nil_append]

theorem attach_fold_keys_nodup (v : FnMeta) (phs : List String) :
    ∀ lh : List (String × List Hook), (dictKeys lh).Nodup →
      (dictKeys (phs.foldl
        (fun lh2 phase =>
          match dictLookup phase lh2 with
          | some l => dictInsert phase (l ++ [Hook.mk v]) lh2
          | none => dictInsert phase [Hook.mk v] lh2)
        lh)).Nodup := by
  induction phs with
  | nil =>
    intro lh h
    exact h
  | cons p rest ih =>
    intro lh h
    simp only [List.foldl_cons]
    apply ih
    cases hl : dictLookup p lh with
    | some l =>
      simp only
      exact dictKeys_insert_nodup _ h
    | none =>
      simp only
      exact dictKeys_insert_nodup _ h

theorem buildLocal_keys_nodup (ns : List FnMeta) :
    ∀ lh : List (String × List Hook), (dictKeys lh).Nodup →
      (dictKeys (ns.foldl
        (fun lh v =>
          v.attach.foldl
            (fun lh2 phase =>
              match dictLookup phase lh2 with
              | some l => dictInsert phase (l ++ [Hook.mk v]) lh2
              | none => dictInsert phase [Hook.mk v] lh2)
            lh)
        lh)).Nodup := by
  induction ns with
  | nil =>
    intro lh h
    exact h
  | cons v rest ih =>
    intro lh h
    simp only [List.foldl_cons]
    exact ih _ (attach_fold_keys_nodup v v.attach lh h)

theorem hr_fold_shape (d : List (String × List Hook)) :
    ∀ acc : List (String × List Hook),
      (dictKeys d).Nodup →
      (∀ k ∈ dictKeys d, k ∉ dictKeys acc) →
      d.foldl
        (fun acc pv =>
          let acc1 :=
            match dictLookup pv.1 acc with
            | some _ => acc
            | none => acc ++ [(pv.1, [])]
          pv.2.foldl
            (fun acc2 h =>
              acc2.map fun qv =>
                if qv.1 = pv.1 then (qv.1, osAdd qv.2 h) else qv)
            acc1)
        acc =
        acc ++ d.map (fun pv => (pv.1, pv.2.foldl osAdd [])) := by
  induction d with
  | nil =>
    intro acc _ _
    simp
  | cons pv rest ih =>
    intro acc hnd hdisj
    simp only [dictKeys, List.map_cons, List.nodup_cons] at hnd
    have hacc : pv.1 ∉ dictKeys acc := hdisj pv.1 (by simp [dictKeys])
    simp only [List.foldl_cons]
    have hset : (match dictLookup pv.1 acc with
        | some _ => acc
        | none => acc ++ [(pv.1, [])]) = acc ++ [(pv.1, ([] : List Hook))] := by
      rw [dictLookup_eq_none hacc]
    rw [hset]
    have hinner := osFold_map pv.1 pv.2 acc []
      (fun qv hq => by
        intro hc
        exact hacc (hc ▸ List.mem_map_of_mem Prod.fst hq))
    rw [hinner]
    rw [ih (acc ++ [(pv.1, pv.2.foldl osAdd [])]) hnd.2 ?_]
    · simp [List.append_assoc]
    · intro k hk
      simp only [dictKeys, List.map_append, List.map_cons, List.map_nil,
        List.mem_append, List.mem_singleton]
      push_neg
      refine ⟨fun hc => hdisj k (by
        simp only [dictKeys, List.map_cons, List.mem_cons]
        exact Or.inr hk) hc, ?_⟩
      intro hc
      rw [hc] at hk
      exact hnd.1 hk

theorem hr_update_shape (d : List (String × List Hook))
    (hnd : (dictKeys d).Nodup) :
    (HookRegistry.update ⟨[]⟩ d).hooks =
      d.map (fun pv => (pv.1, pv.2.foldl osAdd [])) := by
  unfold HookRegistry.update
  have h := hr_fold_shape d [] hnd (by simp [dictKeys])
  simpa using h

theorem osFold_of_nodup (l : List Hook) :
    ∀ acc : List Hook,
      (∀ h ∈ l, ∀ h0 ∈ acc, h0.hname ≠ h.hname) →
      (l.map Hook.hname).Nodup →
      l.foldl osAdd acc = acc ++ l := by
  induction l with
  | nil =>
    intro acc _ _
    simp
  | cons h rest ih =>
    intro acc hdis hnd
    simp only [List.map_cons, List.nodup_cons] at hnd
    simp only [List.foldl_cons]
    have hadd : osAdd acc h = acc ++ [h] := by
      unfold osAdd
      rw [if_neg]
      intro hc
      rw [List.any_eq_true] at hc
      obtain ⟨h0, h0m, hc2⟩ := hc
      rw [decide_eq_true_iff] at hc2
      exact hdis h (List.mem_cons_self _ _) h0 h0m hc2
    rw [hadd, ih]
    · simp
    · intro h2 h2m h0 h0m
      rcases List.mem_append.mp h0m with h3 | h3
      · exact hdis h2 (List.mem_cons_of_mem _ h2m) h0 h3
      · simp only [List.mem_singleton] at h3
        subst h3
        intro hc
        exact hnd.1 (hc ▸ List.mem_map_of_mem Hook.hname h2m)
    · exact hnd.2


/-- dictLookup through the per-phase fold image of a hook dictionary. -/
theorem dictLookup_map_fold (k : String) (d : List (String × List Hook)) :
    dictLookup k (d.map fun pv => (pv.1, pv.2.foldl osAdd [])) =
      (dictLookup k d).map (fun l => l.foldl osAdd []) :=
  dictLookup_map_keyfix (fun _ l => l.foldl osAdd []) k d

/-- C6: in the registry created from a class namespace, every dependency
resolving method not attached to an explicit phase lands in the post_setup
bucket ahead of every explicitly attached post_setup hook, and a method
that is attached to an explicit phase is not additionally scheduled,
because the attach decorator backend clears the resolve-dependencies
mark. -/
theorem C6_deps_post_setup (ns : List FnMeta)
    (hnames : (ns.map FnMeta.name).Nodup)
    (hattach : ∀ v ∈ ns, v.attach.Nodup)
    (hclear : ∀ v ∈ ns, v.attach ≠ [] → v.resolveDeps = false) :
    (HookRegistry.create ns).bucket "post_setup" =
      ((ns.filter (fun v => v.resolveDeps)).map Hook.mk) ++
      ((ns.filter (fun v => decide ("post_setup" ∈ v.attach))).map Hook.mk) ∧
    ∀ (phase : String) (f : FnMeta), (runx phase f).resolveDeps = false := by
  constructor
  · simp only [HookRegistry.create, HookRegistry.bucket]
    set loc := ns.foldl
      (fun lh v =>
        v.attach.foldl
          (fun lh2 phase =>
            match dictLookup phase lh2 with
            | some l => dictInsert phase (l ++ [Hook.mk v]) lh2
            | none => dictInsert phase [Hook.mk v] lh2)
          lh)
      [] with hL
    have hndlocal : (dictKeys loc).Nodup := by
      rw [hL]
      exact buildLocal_keys_nodup ns [] (by simp [dictKeys])
    have hloc : dictLookup "post_setup" loc =
        optBucket none
          ((ns.filter (fun v => decide ("post_setup" ∈ v.attach))).map
            Hook.mk) := by
      rw [hL]
      exact buildLocal_lookup "post_setup" ns [] hattach
    have hgetD : (dictLookup "post_setup" loc).getD [] =
        (ns.filter (fun v => decide ("post_setup" ∈ v.attach))).map
          Hook.mk := by
      rw [hloc]
      by_cases hex : (ns.filter
          (fun v => decide ("post_setup" ∈ v.attach))).map Hook.mk = []
      · rw [hex]
        simp [optBucket]
      · simp [optBucket, hex]
    have hname1 : ∀ p : FnMeta → Bool,
        ((ns.filter p).map Hook.mk).map Hook.hname =
          (ns.filter p).map FnMeta.name := by
      intro p
      rw [List.map_map]
      rfl
    have hndp : ∀ p : FnMeta → Bool, ((ns.filter p).map FnMeta.name).Nodup :=
      fun p => List.Nodup.sublist
        (List.Sublist.map FnMeta.name (List.filter_sublist ns)) hnames
    have hinj : ∀ v1 ∈ ns, ∀ v2 ∈ ns, v1.name = v2.name → v1 = v2 :=
      List.inj_on_of_nodup_map hnames
    have hbig : ((((ns.filter (fun v => v.resolveDeps)).map Hook.mk) ++
        ((ns.filter (fun v => decide ("post_setup" ∈ v.attach))).map
          Hook.mk)).map Hook.hname).Nodup := by
      rw [List.map_append, hname1, hname1]
      rw [List.nodup_append]
      refine ⟨hndp _, hndp _, ?_⟩
      intro x hx1 hx2
      simp only [List.mem_map] at hx1 hx2
      obtain ⟨v1, hv1, hx1⟩ := hx1
      obtain ⟨v2, hv2, hx2⟩ := hx2
      rw [List.mem_filter] at hv1 hv2
      have heq : v1 = v2 := hinj v1 hv1.1 v2 hv2.1 (by rw [hx1, hx2])
      have h1 : v1.resolveDeps = true := hv1.2
      have h2 : ("post_setup" : String) ∈ v2.attach := by
        have := hv2.2
        simpa using this
      have h3 : v2.attach ≠ [] := List.ne_nil_of_mem h2
      have h4 : v2.resolveDeps = false := hclear v2 hv2.1 h3
      rw [heq] at h1
      rw [h1] at h4
      cases h4
    have hfold : (((ns.filter (fun v => v.resolveDeps)).map Hook.mk) ++
        ((ns.filter (fun v => decide ("post_setup" ∈ v.attach))).map
          Hook.mk)).foldl osAdd [] =
        (((ns.filter (fun v => v.resolveDeps)).map Hook.mk) ++
        ((ns.filter (fun v => decide ("post_setup" ∈ v.attach))).map
          Hook.mk)) := by
      have h := osFold_of_nodup _ ([] : List Hook) (by simp) hbig
      simpa using h
    by_cases hdeps : (ns.filter (fun v => v.resolveDeps)).map Hook.mk = []
    · rw [if_pos hdeps]
      rw [hr_update_shape loc hndlocal]
      rw [dictLookup_map_fold]
      rw [hloc]
      rw [hdeps, List.nil_append]
      by_cases hex : (ns.filter
          (fun v => decide ("post_setup" ∈ v.attach))).map Hook.mk = []
      · rw [hex]
        simp [optBucket]
      · have hopt : optBucket none
            ((ns.filter (fun v => decide ("post_setup" ∈ v.attach))).map
              Hook.mk) =
            some ((ns.filter
              (fun v => decide ("post_setup" ∈ v.attach))).map Hook.mk) := by
          simp [optBucket, hex]
        rw [hopt]
        simp only [Option.map_some', Option.getD_some]
        have h := osFold_of_nodup
          ((ns.filter (fun v => decide ("post_setup" ∈ v.attach))).map
            Hook.mk) ([] : List Hook) (by simp) ?_
        · simpa using h
        · rw [hname1]
          exact hndp _
    · rw [if_neg hdeps]
      have hnd2 : (dictKeys (dictInsert "post_setup"
          (((ns.filter (fun v => v.resolveDeps)).map Hook.mk) ++
            ((dictLookup "post_setup" loc).getD [])) loc)).Nodup :=
        dictKeys_insert_nodup _ hndlocal
      rw [hr_update_shape _ hnd2]
      rw [dictLookup_map_fold]
      rw [dictLookup_insert_self]
      simp only [Option.map_some', Option.getD_some]
      rw [hgetD]
      exact hfold
  · intro phase f
    rfl

/-- Witness for C6 at a concrete namespace: one dependency-resolving
method, one explicit post_setup hook, one unrelated hook. -/
theorem C6_witness :
    (HookRegistry.create [⟨"d", 1, [], true⟩, ⟨"e", 2, ["post_setup"], false⟩,
        ⟨"g", 3, ["pre_run"], false⟩]).bucket "post_setup" =
      ((([⟨"d", 1, [], true⟩, ⟨"e", 2, ["post_setup"], false⟩,
        ⟨"g", 3, ["pre_run"], false⟩] : List FnMeta).filter
          (fun v => v.resolveDeps)).map Hook.mk) ++
      ((([⟨"d", 1, [], true⟩, ⟨"e", 2, ["post_setup"], false⟩,
        ⟨"g", 3, ["pre_run"], false⟩] : List FnMeta).filter
          (fun v => decide ("post_setup" ∈ v.attach))).map Hook.mk) ∧
    (runx "post_run" ⟨"m", 0, [], true⟩).resolveDeps = false := by
  refine ⟨(C6_deps_post_setup _ ?_ ?_ ?_).1,
    (C6_deps_post_setup [] (by simp) (by simp) (by simp)).2 "post_run" _⟩
  · decide
  · decide
  · decide


/-! Lemmas for the scoped-naming theorem (add). -/

theorem string_append_left_cancel {s a b : String} (h : s ++ a = s ++ b) :
    a = b := by
  have hd : (s ++ a).data = (s ++ b).data := by rw [h]
  rw [String.data_append, String.data_append] at hd
  have h2 := List.append_cancel_left hd
  exact congrArg String.mk h2

theorem joinU_pair_inj {f p q : String} (h : joinU [f, p] = joinU [f, q]) :
    p = q :=
  string_append_left_cancel (show f ++ "_" ++ p = f ++ "_" ++ q from h)

theorem addFold_snd (t : TCls) (nm : α → String) (val : α → FixArgs)
    (xs : List α) :
    ∀ (r : FixtureRegistry) (acc : List String),
      (xs.foldl
        (fun a x => (a.1.setEntry t (nm x) (val x), a.2 ++ [nm x]))
        (r, acc)).2 = acc ++ xs.map nm := by
  induction xs with
  | nil => intro r acc; simp
  | cons y tl ih =>
    intro r acc
    simp only [List.foldl_cons]
    rw [ih]
    simp

theorem addFold_fst (t : TCls) (nm : α → String) (val : α → FixArgs)
    (xs : List α) :
    ∀ (r : FixtureRegistry) (acc : List String),
      (xs.foldl
        (fun a x => (a.1.setEntry t (nm x) (val x), a.2 ++ [nm x]))
        (r, acc)).1 =
      xs.foldl (fun r2 x => r2.setEntry t (nm x) (val x)) r := by
  induction xs with
  | nil => intro r acc; rfl
  | cons y tl ih =>
    intro r acc
    simp only [List.foldl_cons]
    rw [ih]

theorem setEntry_fold_lookup_not_mem (t : TCls) (nm : α → String)
    (val : α → FixArgs) (xs : List α) :
    ∀ (r : FixtureRegistry) (n : String), n ∉ xs.map nm →
      (xs.foldl (fun r2 x => r2.setEntry t (nm x) (val x)) r).lookup2 t n =
        r.lookup2 t n := by
  induction xs with
  | nil => intro r n _; rfl
  | cons y tl ih =>
    intro r n hn
    simp only [List.map_cons, List.mem_cons] at hn
    push_neg at hn
    simp only [List.foldl_cons]
    rw [ih _ n hn.2]
    exact lookup2_setEntry_ne (val y) (Or.inr hn.1)

theorem setEntry_fold_lookup (t : TCls) (nm : α → String) (val : α → FixArgs)
    (xs : List α) :
    ∀ r : FixtureRegistry, t ∈ dictKeys r.reg → (xs.map nm).Nodup →
      ∀ x ∈ xs,
      (xs.foldl (fun r2 x => r2.setEntry t (nm x) (val x)) r).lookup2 t (nm x)
        = some (val x) := by
  induction xs with
  | nil => intro r _ _ x hx; cases hx
  | cons y tl ih =>
    intro r ht hnd x hx
    simp only [List.map_cons, List.nodup_cons] at hnd
    simp only [List.foldl_cons]
    rcases List.mem_cons.mp hx with h | h
    · subst h
      rw [setEntry_fold_lookup_not_mem t nm val tl _ _ hnd.1]
      exact lookup2_setEntry_self (nm x) (val x) ht
    · exact ih _ (by rw [dictKeys_setEntry]; exact ht) hnd.2 x h

theorem env_fold_flatten (t : TCls) (nm : String → String → String)
    (val : String → String → FixArgs) (ps : List String) :
    ∀ (es : List String) (a : FixtureRegistry × List String),
      ps.foldl
        (fun acc p => es.foldl
          (fun a2 e =>
            (a2.1.setEntry t (nm p e) (val p e), a2.2 ++ [nm p e]))
          acc)
        a =
      (ps.flatMap (fun p => es.map (fun e => (p, e)))).foldl
        (fun a2 pe =>
          (a2.1.setEntry t (nm pe.1 pe.2) (val pe.1 pe.2),
           a2.2 ++ [nm pe.1 pe.2]))
        a := by
  induction ps with
  | nil => intro es a; rfl
  | cons p tl ih =>
    intro es a
    simp only [List.foldl_cons, List.flatMap_cons, List.foldl_append]
    rw [ih]
    congr 1
    rw [List.foldl_map]

/-- C3: the names generated by FixtureRegistry.add per scope.  Session
keeps the first environment and partition under the bare class name; a
partition-scope add with distinct partitions registers one entry per
partition; an environment-scope add registers one entry per
(partition, environment) pair PROVIDED the underscore-joined names are
distinct (the joined names are not injective in the pair, see the
counterexample); test scope stores the untrimmed lists under a
branch-qualified name; non-test scopes do not depend on the branch, and
test-scope names for distinct branches differ. -/
theorem C3_scoped_naming (fullname : TCls → Nat → String)
    (r : FixtureRegistry) (t : TCls) (fid : Nat) (branch : String)
    (p0 e0 : String) (ps es : List String) :
    (∀ res, FixtureRegistry.add fullname r ⟨t, .session⟩ fid branch
        (p0 :: ps) (e0 :: es) = some res →
      res.2 = [fullname t fid] ∧
      res.1.lookup2 t (fullname t fid) = some ⟨fid, [e0], [p0]⟩) ∧
    (∀ res, FixtureRegistry.add fullname r ⟨t, .partition⟩ fid branch
        (p0 :: ps) (e0 :: es) = some res →
      res.2 = (p0 :: ps).map (fun p => joinU [fullname t fid, p]) ∧
      ((p0 :: ps).Nodup → ∀ p ∈ p0 :: ps,
        res.1.lookup2 t (joinU [fullname t fid, p]) =
          some ⟨fid, [e0], [p]⟩)) ∧
    (∀ res, FixtureRegistry.add fullname r ⟨t, .environment⟩ fid branch
        (p0 :: ps) (e0 :: es) = some res →
      res.2 =
        ((p0 :: ps).flatMap (fun p => (e0 :: es).map (fun e => (p, e)))).map
          (fun pe => joinU [fullname t fid, pe.1, pe.2]) ∧
      (res.2.Nodup →
        ∀ pe ∈ (p0 :: ps).flatMap (fun p => (e0 :: es).map (fun e => (p, e))),
          res.1.lookup2 t (joinU [fullname t fid, pe.1, pe.2]) =
            some ⟨fid, [pe.2], [pe.1]⟩)) ∧
    (∀ res, FixtureRegistry.add fullname r ⟨t, .test⟩ fid branch
        (p0 :: ps) (e0 :: es) = some res →
      res.2 = [joinU [fullname t fid, branch]] ∧
      res.1.lookup2 t (joinU [fullname t fid, branch]) =
        some ⟨fid, e0 :: es, p0 :: ps⟩) ∧
    (∀ (sc : Scope) (b1 b2 : String), sc ≠ Scope.test →
      FixtureRegistry.add fullname r ⟨t, sc⟩ fid b1 (p0 :: ps) (e0 :: es) =
      FixtureRegistry.add fullname r ⟨t, sc⟩ fid b2 (p0 :: ps) (e0 :: es)) ∧
    (∀ b1 b2 : String, b1 ≠ b2 →
      joinU [fullname t fid, b1] ≠ joinU [fullname t fid, b2]) := by
  have ht : ∀ tc : TCls, tc ∈ dictKeys ((r.setdefault tc).reg) :=
    fun tc => mem_dictKeys_setdefault.mpr (Or.inl rfl)
  refine ⟨?_, ?_, ?_, ?_, ?_, ?_⟩
  · intro res h
    simp only [FixtureRegistry.add] at h
    injection h with h
    subst h
    exact ⟨rfl, lookup2_setEntry_self _ _ (ht t)⟩
  · intro res h
    simp only [FixtureRegistry.add] at h
    injection h with h
    subst h
    have hsnd := addFold_snd t (fun q => joinU [fullname t fid, q])
      (fun q => (⟨fid, [e0], [q]⟩ : FixArgs)) (p0 :: ps) (r.setdefault t) []
    refine ⟨hsnd.trans (List.nil_append _), ?_⟩
    intro hnd p hp
    have hinj : Function.Injective (fun q => joinU [fullname t fid, q]) :=
      fun a b hab => joinU_pair_inj hab
    have hfst := addFold_fst t (fun q => joinU [fullname t fid, q])
      (fun q => (⟨fid, [e0], [q]⟩ : FixArgs)) (p0 :: ps) (r.setdefault t) []
    have hlk := setEntry_fold_lookup t (fun q => joinU [fullname t fid, q])
      (fun q => (⟨fid, [e0], [q]⟩ : FixArgs)) (p0 :: ps) (r.setdefault t)
      (ht t) (List.Nodup.map hinj hnd) p hp
    exact (congrArg (fun rr => FixtureRegistry.lookup2 rr t
      (joinU [fullname t fid, p])) hfst).trans hlk
  · intro res h
    simp only [FixtureRegistry.add] at h
    injection h with h
    subst h
    have hflat := env_fold_flatten t (fun p e => joinU [fullname t fid, p, e])
      (fun p e => (⟨fid, [e], [p]⟩ : FixArgs)) (p0 :: ps) (e0 :: es)
      (r.setdefault t, [])
    have hsnd := addFold_snd t
      (fun pe : String × String => joinU [fullname t fid, pe.1, pe.2])
      (fun pe => (⟨fid, [pe.2], [pe.1]⟩ : FixArgs))
      ((p0 :: ps).flatMap (fun p => (e0 :: es).map (fun e => (p, e))))
      (r.setdefault t) []
    have hnameseq := (congrArg Prod.snd hflat).trans
      (hsnd.trans (List.nil_append _))
    refine ⟨hnameseq, ?_⟩
    intro hnd pe hpe
    have hnames := hnameseq ▸ hnd
    have hfst := addFold_fst t
      (fun pe : String × String => joinU [fullname t fid, pe.1, pe.2])
      (fun pe => (⟨fid, [pe.2], [pe.1]⟩ : FixArgs))
      ((p0 :: ps).flatMap (fun p => (e0 :: es).map (fun e => (p, e))))
      (r.setdefault t) []
    have hlk := setEntry_fold_lookup t
      (fun pe : String × String => joinU [fullname t fid, pe.1, pe.2])
      (fun pe => (⟨fid, [pe.2], [pe.1]⟩ : FixArgs))
      ((p0 :: ps).flatMap (fun p => (e0 :: es).map (fun e => (p, e))))
      (r.setdefault t) (ht t) hnames pe hpe
    exact (congrArg (fun rr => FixtureRegistry.lookup2 rr t
      (joinU [fullname t fid, pe.1, pe.2]))
      ((congrArg Prod.fst hflat).trans hfst)).trans hlk
  · intro res h
    simp only [FixtureRegistry.add] at h
    injection h with h
    subst h
    exact ⟨rfl, lookup2_setEntry_self _ _ (ht t)⟩
  · intro sc b1 b2 hsc
    cases sc with
    | session => rfl
    | partition => rfl
    | environment => rfl
    | test => exact absurd rfl hsc
  · intro b1 b2 hne h
    exact hne (joinU_pair_inj h)

/-- The environment-scope naming convention is not injective in the
(partition, environment) pair: with partitions ["a", "a_b"] and
environments ["b_c", "c"] the distinct pairs ("a", "b_c") and
("a_b", "c") produce the same underscore-joined name, so the four writes
leave only three entries and the later pair overwrites the earlier one. -/
theorem C3_counterexample :
    FixtureRegistry.add fullname0 FixtureRegistry.empty ⟨0, .environment⟩ 0
        "br" ["a", "a_b"] ["b_c", "c"] =
      some (⟨[(0, [("f_a_b_c", ⟨0, ["c"], ["a_b"]⟩),
                   ("f_a_c", ⟨0, ["c"], ["a"]⟩),
                   ("f_a_b_b_c", ⟨0, ["b_c"], ["a_b"]⟩)])]⟩,
            ["f_a_b_c", "f_a_c", "f_a_b_b_c", "f_a_b_c"]) ∧
    joinU ["f", "a", "b_c"] = joinU ["f", "a_b", "c"] ∧
    (("a", "b_c") : String × String) ≠ ("a_b", "c") ∧
    ¬ (["f_a_b_c", "f_a_c", "f_a_b_b_c", "f_a_b_c"] : List String).Nodup := by
  exact ⟨rfl, rfl, by decide, by decide⟩

/-- Witness for C3 at a concrete partition-scope add. -/
theorem C3_witness :
    FixtureRegistry.add fullname0 FixtureRegistry.empty ⟨0, .partition⟩ 0 "br"
        ["p1", "p2"] ["e1"] = some RP ∧
    RP.2 = ["f_p1", "f_p2"] ∧
    (["p1", "p2"] : List String).Nodup ∧
    RP.1.lookup2 0 (joinU [fullname0 0 0, "p2"]) = some ⟨0, ["e1"], ["p2"]⟩ := by
  have h := (C3_scoped_naming fullname0 FixtureRegistry.empty 0 0 "br" "p1"
    "e1" ["p2"] []).2.1 RP rfl
  refine ⟨rfl, ?_, by decide, ?_⟩
  · exact h.1.trans (by rfl)
  · exact h.2 (by decide) "p2" (by decide)


/-- C8: expanding a starred valid_prog_environs goes through tuple(set(...))
and therefore depends on the set iteration order.  Both first-occurrence
and reversed iteration are faithful models of iterating a Python set with
the same insertions, yet they yield different environment tuples and
different registered session-scope fixture entries, so two runs over the
same registry with the same insertion order need not agree. -/
theorem C8_star_env_order :
    ModelsSetIter setIterA ∧ ModelsSetIter setIterB ∧
    resolve_prog_envs setIterA rtX ["*"] = ["e1", "e2"] ∧
    resolve_prog_envs setIterB rtX ["*"] = ["e2", "e1"] ∧
    resolve_prog_envs setIterA rtX ["*"] ≠
      resolve_prog_envs setIterB rtX ["*"] ∧
    FixtureRegistry.add fullname0 FixtureRegistry.empty ⟨0, .session⟩ 0 "b"
        (resolve_part rtX ["*"]) (resolve_prog_envs setIterA rtX ["*"]) ≠
      FixtureRegistry.add fullname0 FixtureRegistry.empty ⟨0, .session⟩ 0 "b"
        (resolve_part rtX ["*"]) (resolve_prog_envs setIterB rtX ["*"]) := by
  refine ⟨?_, ?_, rfl, rfl, by decide, by decide⟩
  · intro xs
    exact ⟨List.nodup_dedup xs, fun x => List.mem_dedup⟩
  · intro xs
    refine ⟨List.nodup_dedup _, fun x => ?_⟩
    unfold setIterB
    rw [List.mem_dedup, List.mem_reverse]


set_option maxHeartbeats 1000000 in
/-- C9: the modelled version order is a strict total order (irreflexive,
transitive, trichotomous); it validates the chain
1.2 < 1.2.1 < 1.2.2 < 1.3-dev0 < 1.3-dev1 < 1.3 on parsed version
strings, and a missing patch level is normalized to zero, so 1.3 parses
equal to 1.3.0. -/
theorem C9_version_order :
    (∀ a : Version, a.lt a = false) ∧
    (∀ a b c : Version, a.lt b = true → b.lt c = true → a.lt c = true) ∧
    (∀ a b : Version, a.lt b = true ∨ b.lt a = true ∨ a = b) ∧
    vltStr "1.2" "1.2.1" = true ∧ vltStr "1.2.1" "1.2.2" = true ∧
    vltStr "1.2.2" "1.3-dev0" = true ∧ vltStr "1.3-dev0" "1.3-dev1" = true ∧
    vltStr "1.3-dev1" "1.3" = true ∧
    Version.parse "1.3" = Version.parse "1.3.0" := by
  refine ⟨?_, ?_, ?_, by decide, by decide, by decide, by decide, by decide,
    by decide⟩
  · intro a
    rcases ha : a.dev with _ | m <;> simp [Version.lt, ha]
  · intro a b c hab hbc
    unfold Version.lt at hab hbc ⊢
    rcases ha : a.dev with _ | m <;> rcases hb : b.dev with _ | k <;>
      rcases hc : c.dev with _ | l <;>
      simp only [ha, hb, hc] at hab hbc ⊢ <;>
      split_ifs at hab hbc ⊢ <;>
      simp only [ne_eq, not_not, decide_eq_true_eq] at hab hbc ⊢ <;>
      first | rfl | omega
  · intro a b
    obtain ⟨a1, a2, a3, ad⟩ := a
    obtain ⟨b1, b2, b3, bd⟩ := b
    unfold Version.lt
    rcases ad with _ | m <;> rcases bd with _ | k <;>
      simp only [Version.mk.injEq] <;>
      split_ifs <;>
      simp only [ne_eq, decide_eq_true_eq, not_not, Option.some.injEq,
        reduceCtorEq] at * <;>
      first | rfl | omega | simp_all

/-- Witness for C9: transitivity applied at parsed concrete versions. -/
theorem C9_witness :
    Version.lt ⟨1, 2, 0, none⟩ ⟨1, 3, 0, some 0⟩ = true :=
  C9_version_order.2.1 ⟨1, 2, 0, none⟩ ⟨1, 2, 1, none⟩ ⟨1, 3, 0, some 0⟩
    (by decide) (by decide)

end Reframe
